import Mathlib

/-!
Verification development for the StockWatch HTML sanitization core.

The repository configures its sanitizer in `src/utils/sanitize.ts`
(`sanitizeHtml`, `sanitizeNote`) by passing a strict policy
(ALLOWED_TAGS, ALLOWED_ATTR, FORBID_TAGS, FORBID_ATTR, ALLOWED_URI_REGEXP,
KEEP_CONTENT) to an external sanitization engine, followed by a
link-hardening post-pass.  The engine itself (tolerant parser, tree
sanitizer, URI validator, serializer, link normalizer) is not part of the
repository sources, so it is modelled here from the specification
(spec.md sections 3 and 4), while the policy data and the component
behaviour of `StockNotes.tsx` are taken directly from the sources.

All definitions are executable (structural recursion or folds), so closed
facts about concrete inputs can be settled by kernel evaluation.
-/

namespace StockWatch

/-! ### Policy (from the source configuration in src/utils/sanitize.ts) -/

/-- ALLOWED_TAGS from the source configuration. -/
def ALLOWED_TAGS : List String :=
  ["b", "i", "em", "strong", "u", "s",
   "p", "br",
   "ul", "ol", "li",
   "a",
   "code", "pre",
   "blockquote"]

/-- ALLOWED_ATTR from the source configuration. -/
def ALLOWED_ATTR : List String := ["href", "rel", "target"]

/-- FORBID_TAGS from the source configuration. -/
def FORBID_TAGS : List String :=
  ["script", "style", "iframe", "object", "embed",
   "link", "meta", "base", "form", "input", "textarea",
   "button", "select", "option", "svg", "math",
   "video", "audio", "source", "track", "canvas",
   "img"]

/-- FORBID_ATTR from the source configuration. -/
def FORBID_ATTR : List String :=
  ["style",
   "onerror", "onclick", "onload", "onmouseover", "onmouseout",
   "onabort", "onblur", "onchange", "ondblclick", "onfocus",
   "onkeydown", "onkeypress", "onkeyup", "onmousedown", "onmousemove",
   "onmouseup", "onreset", "onselect", "onsubmit", "onunload"]

/-- Attribute names whose values carry URLs and must pass URI validation
(spec section 3; `href` is the only such name that is also allowed). -/
def uriAttrNames : List String := ["href"]

/-- URL schemes accepted by the source ALLOWED_URI_REGEXP
`(?:(?:f|ht)tps?|mailto):`, i.e. ftp, ftps, http, https and mailto. -/
def allowedSchemes : List String := ["http", "https", "ftp", "ftps", "mailto"]

/-- Modelled from the spec: the fixed list of void tags (spec section 4.1;
the engine performing void-element handling is not in the repository
sources).  These are the HTML void elements. -/
def voidTags : List String :=
  ["area", "base", "br", "col", "embed", "hr", "img", "input",
   "link", "meta", "param", "source", "track", "wbr"]

/-! ### Characters and escaping -/

/-- Whitespace characters recognised by the tokenizer. -/
def isWs (c : Char) : Bool :=
  c == ' ' || c == '\t' || c == '\n' || c == '\r' || c == '\x0c'

/-- ASCII control characters (0x00-0x1f and 0x7f). -/
def isCtl (c : Char) : Bool := c.toNat < 0x20 || c.toNat == 0x7f

/-- Escape one character for a text position (spec section 4.4). -/
def escTextC (c : Char) : List Char :=
  if c == '&' then "&amp;".data
  else if c == '<' then "&lt;".data
  else if c == '>' then "&gt;".data
  else [c]

/-- Escape a character sequence for a text position. -/
def escText : List Char → List Char
  | [] => []
  | c :: cs => escTextC c ++ escText cs

/-- Escape one character for a quoted attribute value (spec section 4.4:
attribute values are escaped for quote and ampersand). -/
def escAttrC (c : Char) : List Char :=
  if c == '&' then "&amp;".data
  else if c == '"' then "&quot;".data
  else [c]

/-- Escape a character sequence for a quoted attribute value. -/
def escAttr : List Char → List Char
  | [] => []
  | c :: cs => escAttrC c ++ escAttr cs

/-! ### Character-reference decoding (spec section 4.1, performed once) -/

/-- Turn a numeric character reference into a character; the placeholder
U+FFFD replaces invalid or NUL code points. -/
def charFromNat (n : Nat) : Char :=
  if n ≠ 0 ∧ Nat.isValidChar n then Char.ofNat n else '�'

/-- Value of a hexadecimal digit. -/
def hexDigitVal (c : Char) : Nat :=
  if c.isDigit then c.toNat - '0'.toNat
  else if 'a' ≤ c.toLower ∧ c.toLower ≤ 'f' then c.toLower.toNat - 'a'.toNat + 10
  else 0

/-- Check for a hexadecimal digit. -/
def isHexDigit (c : Char) : Bool :=
  c.isDigit || ('a' ≤ c.toLower && c.toLower ≤ 'f')

/-- Numeric value of a list of hexadecimal digits. -/
def hexVal (ds : List Char) : Nat := ds.foldl (fun n c => 16 * n + hexDigitVal c) 0

/-- Numeric value of a list of decimal digits. -/
def decVal (ds : List Char) : Nat := ds.foldl (fun n c => 10 * n + (c.toNat - '0'.toNat)) 0

/-- Resolve the body of a character reference `&body;`.  Named references
for the characters produced by the serializer and numeric references are
recognised; anything else stays literal. -/
def resolveEnt (buf : List Char) : List Char :=
  if buf = "amp".data then ['&']
  else if buf = "lt".data then ['<']
  else if buf = "gt".data then ['>']
  else if buf = "quot".data then ['"']
  else if buf = "apos".data then ['\'']
  else
    match buf with
    | '#' :: 'x' :: ds =>
      if ds ≠ [] ∧ ds.all isHexDigit then [charFromNat (hexVal ds)]
      else '&' :: buf ++ [';']
    | '#' :: 'X' :: ds =>
      if ds ≠ [] ∧ ds.all isHexDigit then [charFromNat (hexVal ds)]
      else '&' :: buf ++ [';']
    | '#' :: ds =>
      if ds ≠ [] ∧ ds.all Char.isDigit then [charFromNat (decVal ds)]
      else '&' :: buf ++ [';']
    | _ => '&' :: buf ++ [';']

/-- Characters that may continue a character-reference body. -/
def entChar (c : Char) : Bool := c.isAlpha || c.isDigit || c == '#'

/-- State of the character-reference decoder: output so far, and the body
of a potential reference after an ampersand (if any). -/
def DecSt := List Char × Option (List Char)

/-- One step of the character-reference decoder. -/
def decStep : DecSt → Char → DecSt
  | (out, none), c => if c == '&' then (out, some []) else (out ++ [c], none)
  | (out, some buf), c =>
    if c == ';' then (out ++ resolveEnt buf, none)
    else if c == '&' then (out ++ '&' :: buf, some [])
    else if entChar c then (out, some (buf ++ [c]))
    else (out ++ '&' :: buf ++ [c], none)

/-- Flush the decoder state at the end of the input. -/
def decFinish : DecSt → List Char
  | (out, none) => out
  | (out, some buf) => out ++ '&' :: buf

/-- Decode HTML character references exactly once (spec section 4.1). -/
def decode (cs : List Char) : List Char := decFinish (cs.foldl decStep ([], none))

/-! ### URI validation (spec section 4.3) -/

/-- Strip all ASCII control characters. -/
def stripCtl (cs : List Char) : List Char := cs.filter (fun c => !isCtl c)

/-- Strip leading and trailing spaces. -/
def trimSp (cs : List Char) : List Char :=
  ((cs.dropWhile (· == ' ')).reverse.dropWhile (· == ' ')).reverse

/-- Characters allowed in a URI scheme. -/
def schemeChar (c : Char) : Bool :=
  c.isAlpha || c.isDigit || c == '+' || c == '-' || c == '.'

/-- Return the characters before the first `:` when a `:` occurs before
any `/`, `?` or `#`; otherwise the value is a relative reference. -/
def splitScheme : List Char → Option (List Char)
  | [] => none
  | c :: rest =>
    if c == ':' then some []
    else if c == '/' || c == '?' || c == '#' then none
    else (splitScheme rest).map (c :: ·)

/-- Modelled from the spec (section 4.3; the URI validator of the engine is
not in the repository sources): strip leading/trailing whitespace and all
ASCII control characters; a value with no scheme separator before the
first `/`, `?` or `#` is a safe relative reference; otherwise the
extracted scheme must consist of scheme characters and be a
case-insensitive member of the allowlist. -/
def isSafeUri (v : String) : Bool :=
  let cs := trimSp (stripCtl v.data)
  match splitScheme cs with
  | none => true
  | some sch => sch.all schemeChar && allowedSchemes.contains (String.mk (sch.map Char.toLower))

/-! ### Tokenizer (spec section 4.1), as a total state machine -/

/-- Tokens produced by the tokenizer: decoded text, an opening tag with
its (lowercased) name and decoded attributes, or a closing tag. -/
inductive Tok where
  | text : String → Tok
  | tagOpen : String → List (String × String) → Tok
  | close : String → Tok
deriving DecidableEq, Repr

/-- Raw-text tags, whose content is tokenized as opaque text (spec
section 4.1: the elements whose tag is in FORBID_TAGS, except void ones). -/
def rawTextTag (t : String) : Bool := FORBID_TAGS.contains t && !voidTags.contains t

/-- Tokenizer state.  Each constructor carries the tokens emitted so far
together with the data of the construct being read. -/
inductive LexSt where
  | dat (toks : List Tok) (acc : List Char)
  | lt (toks : List Tok)
  | tagName (toks : List Tok) (name : List Char)
  | inTag (toks : List Tok) (tag : String) (attrs : List (String × String))
  | slash (toks : List Tok) (tag : String) (attrs : List (String × String))
  | attrName (toks : List Tok) (tag : String) (attrs : List (String × String)) (an : List Char)
  | attrAfter (toks : List Tok) (tag : String) (attrs : List (String × String)) (an : String)
  | attrVal (toks : List Tok) (tag : String) (attrs : List (String × String)) (an : String)
  | valDq (toks : List Tok) (tag : String) (attrs : List (String × String)) (an : String) (v : List Char)
  | valSq (toks : List Tok) (tag : String) (attrs : List (String × String)) (an : String) (v : List Char)
  | valUq (toks : List Tok) (tag : String) (attrs : List (String × String)) (an : String) (v : List Char)
  | closeStart (toks : List Tok)
  | closeName (toks : List Tok) (name : List Char)
  | closeSkip (toks : List Tok) (name : String)
  | bang (toks : List Tok)
  | bang2 (toks : List Tok)
  | comment (toks : List Tok)
  | commentD1 (toks : List Tok)
  | commentD2 (toks : List Tok)
  | bogus (toks : List Tok)
  | raw (toks : List Tok) (tag : String) (acc : List Char)
  | rawLt (toks : List Tok) (tag : String) (acc : List Char)
  | rawClose (toks : List Tok) (tag : String) (acc : List Char) (part : List Char)
deriving Repr

/-- Emit the pending text (decoded) as a token, when nonempty. -/
def emitText (toks : List Tok) (acc : List Char) : List Tok :=
  if acc.isEmpty then toks else toks ++ [.text (String.mk (decode acc))]

/-- Emit pending raw text (undecoded, spec section 4.1) as a token. -/
def emitRaw (toks : List Tok) (acc : List Char) : List Tok :=
  if acc.isEmpty then toks else toks ++ [.text (String.mk acc)]

/-- Finish an opening tag: emit its token and enter raw-text mode for
raw-text tags, data mode otherwise. -/
def finishTag (toks : List Tok) (tag : String) (attrs : List (String × String)) : LexSt :=
  let toks' := toks ++ [.tagOpen tag attrs]
  if rawTextTag tag then .raw toks' tag [] else .dat toks' []

/-- Append one attribute (duplicates are resolved by the tree builder). -/
def pushAttr (attrs : List (String × String)) (an : String) (v : String) :
    List (String × String) := attrs ++ [(an, v)]

/-- Fall back to raw text when a candidate `</tag` match fails: the
consumed characters are restored as raw text and the current character is
re-dispatched. -/
def rawFallback (toks : List Tok) (tag : String) (acc part : List Char) (c : Char) : LexSt :=
  let acc' := acc ++ '<' :: '/' :: part
  if c == '<' then .rawLt toks tag acc' else .raw toks tag (acc' ++ [c])

/-- One step of the tokenizer. -/
def lexStep : LexSt → Char → LexSt
  | .dat toks acc, c => if c == '<' then .lt (emitText toks acc) else .dat toks (acc ++ [c])
  | .lt toks, c =>
    if c.isAlpha then .tagName toks [c.toLower]
    else if c == '/' then .closeStart toks
    else if c == '!' then .bang toks
    else if c == '?' then .bogus toks
    else if c == '<' then .lt (toks ++ [.text "<"])
    else .dat toks ['<', c]
  | .tagName toks name, c =>
    if c == '>' then finishTag toks (String.mk name) []
    else if isWs c then .inTag toks (String.mk name) []
    else if c == '/' then .slash toks (String.mk name) []
    else .tagName toks (name ++ [c.toLower])
  | .inTag toks t attrs, c =>
    if c == '>' then finishTag toks t attrs
    else if isWs c then .inTag toks t attrs
    else if c == '/' then .slash toks t attrs
    else .attrName toks t attrs [c.toLower]
  | .slash toks t attrs, c =>
    if c == '>' then finishTag toks t attrs
    else if isWs c then .inTag toks t attrs
    else if c == '/' then .slash toks t attrs
    else .attrName toks t attrs [c.toLower]
  | .attrName toks t attrs an, c =>
    if c == '>' then finishTag toks t (pushAttr attrs (String.mk an) "")
    else if isWs c then .attrAfter toks t attrs (String.mk an)
    else if c == '/' then .slash toks t (pushAttr attrs (String.mk an) "")
    else if c == '=' then .attrVal toks t attrs (String.mk an)
    else .attrName toks t attrs (an ++ [c.toLower])
  | .attrAfter toks t attrs an, c =>
    if c == '>' then finishTag toks t (pushAttr attrs an "")
    else if isWs c then .attrAfter toks t attrs an
    else if c == '=' then .attrVal toks t attrs an
    else if c == '/' then .slash toks t (pushAttr attrs an "")
    else .attrName toks t (pushAttr attrs an "") [c.toLower]
  | .attrVal toks t attrs an, c =>
    if c == '>' then finishTag toks t (pushAttr attrs an "")
    else if isWs c then .attrVal toks t attrs an
    else if c == '"' then .valDq toks t attrs an []
    else if c == '\'' then .valSq toks t attrs an []
    else .valUq toks t attrs an [c]
  | .valDq toks t attrs an v, c =>
    if c == '"' then .inTag toks t (pushAttr attrs an (String.mk (decode v)))
    else .valDq toks t attrs an (v ++ [c])
  | .valSq toks t attrs an v, c =>
    if c == '\'' then .inTag toks t (pushAttr attrs an (String.mk (decode v)))
    else .valSq toks t attrs an (v ++ [c])
  | .valUq toks t attrs an v, c =>
    if c == '>' then finishTag toks t (pushAttr attrs an (String.mk (decode v)))
    else if isWs c then .inTag toks t (pushAttr attrs an (String.mk (decode v)))
    else .valUq toks t attrs an (v ++ [c])
  | .closeStart toks, c =>
    if c.isAlpha then .closeName toks [c.toLower]
    else if c == '>' then .dat toks []
    else .bogus toks
  | .closeName toks name, c =>
    if c == '>' then .dat (toks ++ [.close (String.mk name)]) []
    else if isWs c || c == '/' then .closeSkip toks (String.mk name)
    else .closeName toks (name ++ [c.toLower])
  | .closeSkip toks name, c =>
    if c == '>' then .dat (toks ++ [.close name]) [] else .closeSkip toks name
  | .bang toks, c =>
    if c == '-' then .bang2 toks else if c == '>' then .dat toks [] else .bogus toks
  | .bang2 toks, c =>
    if c == '-' then .comment toks else if c == '>' then .dat toks [] else .bogus toks
  | .comment toks, c => if c == '-' then .commentD1 toks else .comment toks
  | .commentD1 toks, c => if c == '-' then .commentD2 toks else .comment toks
  | .commentD2 toks, c =>
    if c == '>' then .dat toks []
    else if c == '-' then .commentD2 toks
    else .comment toks
  | .bogus toks, c => if c == '>' then .dat toks [] else .bogus toks
  | .raw toks t acc, c => if c == '<' then .rawLt toks t acc else .raw toks t (acc ++ [c])
  | .rawLt toks t acc, c =>
    if c == '/' then .rawClose toks t acc []
    else if c == '<' then .rawLt toks t (acc ++ ['<'])
    else .raw toks t (acc ++ ['<', c])
  | .rawClose toks t acc part, c =>
    if part.length = t.length then
      if c == '>' then .dat (emitRaw toks acc ++ [.close t]) []
      else if isWs c || c == '/' then .closeSkip (emitRaw toks acc) t
      else rawFallback toks t acc part c
    else if ((part ++ [c]).map Char.toLower).isPrefixOf t.data then
      .rawClose toks t acc (part ++ [c])
    else rawFallback toks t acc part c

/-- Flush the tokenizer state at the end of the input: pending text
becomes a final text token, a partially read tag or comment is discarded
(tolerant end-of-input recovery). -/
def lexFinish : LexSt → List Tok
  | .dat toks acc => emitText toks acc
  | .lt toks => toks ++ [.text "<"]
  | .tagName toks _ => toks
  | .inTag toks _ _ => toks
  | .slash toks _ _ => toks
  | .attrName toks _ _ _ => toks
  | .attrAfter toks _ _ _ => toks
  | .attrVal toks _ _ _ => toks
  | .valDq toks _ _ _ _ => toks
  | .valSq toks _ _ _ _ => toks
  | .valUq toks _ _ _ _ => toks
  | .closeStart toks => toks
  | .closeName toks _ => toks
  | .closeSkip toks _ => toks
  | .bang toks => toks
  | .bang2 toks => toks
  | .comment toks => toks
  | .commentD1 toks => toks
  | .commentD2 toks => toks
  | .bogus toks => toks
  | .raw toks _ acc => emitRaw toks acc
  | .rawLt toks _ acc => emitRaw toks (acc ++ ['<'])
  | .rawClose toks _ acc part => emitRaw toks (acc ++ '<' :: '/' :: part)

/-- Tokenize a character sequence; never fails. -/
def tokenize (cs : List Char) : List Tok := lexFinish (cs.foldl lexStep (.dat [] []))

/-! ### Node trees and the tree builder (spec sections 3 and 4.1) -/

/-- Document nodes (spec section 3): text, or an element with lowercased
tag, ordered attribute list and ordered children. -/
inductive Node where
  | text : String → Node
  | elem : String → List (String × String) → List Node → Node
deriving Repr

/-- Keep the first occurrence of each attribute name, dropping later
duplicates (tolerant parsing). -/
def dedupAttrs (seen : List String) : List (String × String) → List (String × String)
  | [] => []
  | p :: rest =>
    if seen.contains p.1 then dedupAttrs seen rest
    else p :: dedupAttrs (seen ++ [p.1]) rest

/-- Stack frame of the tree builder: an open element's tag, attributes,
and the child list accumulated before it was opened. -/
def Frame := String × List (String × String) × List Node

/-- Close open elements up to and including the first frame named `t`,
folding the accumulated children into elements. -/
def closeUpTo (t : String) : List Frame → List Node → List Frame × List Node
  | [], acc => ([], acc)
  | (t', a', acc') :: st, acc =>
    if t' = t then (st, acc' ++ [.elem t' a' acc])
    else closeUpTo t st (acc' ++ [.elem t' a' acc])

/-- One step of the tree builder. -/
def bstep : List Frame × List Node → Tok → List Frame × List Node
  | (st, acc), .text s => (st, acc ++ [.text s])
  | (st, acc), .tagOpen t a =>
    let a' := dedupAttrs [] a
    if voidTags.contains t then (st, acc ++ [.elem t a' []])
    else ((t, a', acc) :: st, [])
  | (st, acc), .close t =>
    if (st.map (fun f => f.1)).contains t then closeUpTo t st acc
    else (st, acc)

/-- Auto-close every still-open element at the end of the input. -/
def bfinish : List Frame → List Node → List Node
  | [], acc => acc
  | (t, a, acc') :: st, acc => bfinish st (acc' ++ [.elem t a acc])

/-- Build a node forest from tokens; mismatched close tags are ignored,
unclosed elements are auto-closed (spec section 4.1). -/
def build (toks : List Tok) : List Node :=
  let p := toks.foldl bstep ([], [])
  bfinish p.1 p.2

/-- Modelled from the spec (section 4.1; the tolerant parser of the engine
is not in the repository sources): parse an arbitrary string into a node
forest, never failing. -/
def parse (s : String) : List Node := build (tokenize s.data)

/-! ### Tree sanitizer (spec section 4.2) -/

/-- Keep an attribute only if its name is allowed and not forbidden, and
a URI attribute additionally passes URI validation (spec section 4.2,
rule 3). -/
def attrOK (p : String × String) : Bool :=
  ALLOWED_ATTR.contains p.1 && !FORBID_ATTR.contains p.1 &&
    (!uriAttrNames.contains p.1 || isSafeUri p.2)

/-- Filter an attribute list through the policy. -/
def filterAttrs (attrs : List (String × String)) : List (String × String) :=
  attrs.filter attrOK

/-- Merge adjacent text nodes and drop empty text nodes, so that the
sanitized forest has a canonical, re-parse-stable shape (spec
section 4.4). -/
def coalesce : List Node → List Node
  | [] => []
  | .text s :: rest =>
    if s = "" then coalesce rest
    else
      match coalesce rest with
      | .text s2 :: r => .text (s ++ s2) :: r
      | r => .text s :: r
  | .elem t a c :: rest => .elem t a c :: coalesce rest

mutual
/-- Modelled from the spec (section 4.2; the tree sanitizer of the engine
is not in the repository sources): a text node passes through; an element
with a forbidden tag is deleted with its whole subtree; an element with an
allowed tag keeps policy-filtered attributes and sanitized children; any
other element is dropped but its sanitized children are spliced in place
(KEEP_CONTENT is true in the source configuration). -/
def sanitizeNode : Node → List Node
  | .text s => [.text s]
  | .elem t a c =>
    if FORBID_TAGS.contains t then []
    else if ALLOWED_TAGS.contains t then
      [.elem t (filterAttrs a) (coalesce (sanitizeList c))]
    else sanitizeList c

/-- Sanitize a forest of nodes in order. -/
def sanitizeList : List Node → List Node
  | [] => []
  | n :: ns => sanitizeNode n ++ sanitizeList ns
end

/-! ### List-level prefix test on strings -/

/-- List-level prefix test on strings. -/
def strStarts (s p : String) : Bool := p.data.isPrefixOf s.data

/-! ### Serializer (spec section 4.4) -/

/-- Serialize one attribute as ` name="value"` with the value escaped. -/
def serAttr (p : String × String) : List Char :=
  ' ' :: p.1.data ++ '=' :: '"' :: escAttr p.2.data ++ ['"']

/-- Serialize an attribute list. -/
def serAttrs : List (String × String) → List Char
  | [] => []
  | p :: ps => serAttr p ++ serAttrs ps

mutual
/-- Modelled from the spec (section 4.4; the serializer of the engine is
not in the repository sources): canonical markup with text escaped for
`<`, `>`, `&` and attribute values escaped for quote and ampersand; void
tags are emitted without children or a closing tag. -/
def serNode : Node → List Char
  | .text s => escText s.data
  | .elem t a c =>
    '<' :: t.data ++ serAttrs a ++ ['>'] ++
      (if voidTags.contains t then [] else serList c ++ '<' :: '/' :: t.data ++ ['>'])

/-- Serialize a forest of nodes. -/
def serList : List Node → List Char
  | [] => []
  | n :: ns => serNode n ++ serList ns
end

/-! ### The link post-pass of sanitizeHtml (from the source)

The source of sanitizeHtml (src/utils/sanitize.ts) post-processes the
serialized string with a global case-insensitive regex replace: every
match of `<a\s+([^>]*href=["'](?:https?:\/\/[^"']+)["'][^>]*)>` is
rewritten to `<a ` ++ attrs ++ `>` where ` rel="noopener noreferrer"` is
appended to attrs when attrs does not contain the substring `rel=`, and
` target="_blank"` when it does not contain `target=`.  The functions
below reproduce these regex semantics: a leftmost scan, a greedy
whitespace run after `<a`, a rightmost-first search for the
`href=["']https?://[^"']+["']` anchor inside the `>`-free attribute run
(backtracking of the greedy `[^>]*`), and case-sensitive substring checks
for the two insertions. -/

/-- Whitespace characters matched by the JavaScript regex class. -/
def jsWs (c : Char) : Bool :=
  c == ' ' || c == '\t' || c == '\n' || c == '\r' || c == '\x0c' || c == '\x0b'

/-- Quote characters of the regex class. -/
def quoteCh (c : Char) : Bool := c == '"' || c == '\''

/-- Consume a literal pattern (given lowercase) case-insensitively,
returning the consumed input characters and the rest. -/
def ciSplit : List Char → List Char → Option (List Char × List Char)
  | [], cs => some ([], cs)
  | _ :: _, [] => none
  | p :: ps, c :: cs =>
    if c.toLower == p then (ciSplit ps cs).map (fun r => (c :: r.1, r.2)) else none

/-- Match the anchor `href=["']https?://[^"']+["']` at the head of the
input, returning the matched characters and the rest. -/
def matchAnchor (cs : List Char) : Option (List Char × List Char) :=
  match ciSplit "href=".data cs with
  | none => none
  | some (h1, r1) =>
    match r1 with
    | [] => none
    | q1 :: r2 =>
      if quoteCh q1 then
        match ciSplit "http".data r2 with
        | none => none
        | some (h2, r3) =>
          let sOpt : List Char × List Char :=
            match r3 with
            | c :: r4 => if c.toLower == 's' then ([c], r4) else ([], r3)
            | [] => ([], r3)
          match ciSplit "://".data sOpt.2 with
          | none => none
          | some (h4, r5) =>
            let v := r5.takeWhile (fun c => !quoteCh c)
            let r6 := r5.dropWhile (fun c => !quoteCh c)
            if v.isEmpty then none
            else
              match r6 with
              | q2 :: r7 =>
                if quoteCh q2 then
                  some (h1 ++ q1 :: (h2 ++ sOpt.1 ++ h4 ++ v ++ [q2]), r7)
                else none
              | [] => none
      else none

/-- All splits (pre, suf) of the input with a `>`-free prefix, in
ascending prefix length (the candidate positions of the greedy but
backtracking `[^>]*` before the anchor). -/
def nogSplits : List Char → List (List Char × List Char)
  | [] => [([], [])]
  | c :: rest =>
    ([], c :: rest) ::
      (if c == '>' then [] else (nogSplits rest).map (fun p => (c :: p.1, p.2)))

/-- Try the anchor at one split point: the anchor, then a `>`-free run,
then the closing `>`.  Returns the captured attribute text and the rest
after the match. -/
def tryAnchor (pr : List Char × List Char) : Option (List Char × List Char) :=
  match matchAnchor pr.2 with
  | none => none
  | some (anch, r3) =>
    let b := r3.takeWhile (fun c => !(c == '>'))
    match r3.dropWhile (fun c => !(c == '>')) with
    | g :: r5 => if g == '>' then some (pr.1 ++ anch ++ b, r5) else none
    | [] => none

/-- Match the whole hardening regex at the head of the input: `<a`, at
least one whitespace character, then the attribute text with its anchor,
then `>`; the anchor position is tried rightmost first. -/
def matchTagAt (cs : List Char) : Option (List Char × List Char) :=
  match ciSplit "<a".data cs with
  | none => none
  | some (_, r1) =>
    let ws := r1.takeWhile jsWs
    let r2 := r1.dropWhile jsWs
    if ws.isEmpty then none
    else ((nogSplits r2).reverse).findSome? tryAnchor

/-- Substring test on character lists (JS String.prototype.includes). -/
def hasInfix : List Char → List Char → Bool
  | [], pat => pat.isEmpty
  | c :: rest, pat => pat.isPrefixOf (c :: rest) || hasInfix rest pat

/-- Append the two hardening insertions exactly when the captured
attribute text lacks the substrings `rel=` and `target=` (the source's
attrs.includes checks, which also fire on occurrences inside the href
value). -/
def applyAdds (group : List Char) : List Char :=
  let g1 := if hasInfix group ("rel=".data) then group
            else group ++ (" rel=\"noopener noreferrer\"").data
  if hasInfix g1 ("target=".data) then g1
  else g1 ++ (" target=\"_blank\"").data

/-- The replace loop: scan left to right, rewrite each match in place and
continue after it (the fuel is one more than the input length, which the
scan never exhausts). -/
def postGo : Nat → List Char → List Char
  | 0, cs => cs
  | _ + 1, [] => []
  | fuel + 1, c :: rest =>
    match matchTagAt (c :: rest) with
    | some (group, r) => '<' :: 'a' :: ' ' :: (applyAdds group ++ '>' :: postGo fuel r)
    | none => c :: postGo fuel rest

/-- The link post-pass of the source of sanitizeHtml (the regex replace
described above). -/
def postLinks (s : String) : String := String.mk (postGo (s.data.length + 1) s.data)

/-! ### The exported pipeline (source: sanitizeHtml, sanitizeNote) -/

/-- The sanitized tree of an input string: the engine stage of the
pipeline (parse, sanitize, canonical shape), before serialization and
the link post-pass. -/
def sanitizedTree (s : String) : List Node :=
  coalesce (sanitizeList (parse s))

/-- The function `sanitizeHtml` of src/utils/sanitize.ts: a falsy (empty)
input returns the empty string; otherwise the input runs through the
sanitization engine, is serialized, and the serialized string runs
through the link post-pass. -/
def sanitizeHtml (html : String) : String :=
  if html = "" then "" else postLinks (String.mk (serList (sanitizedTree html)))

/-- A JavaScript input value as received by sanitizeHtml: either a string
or a non-string value. -/
inductive JsInput where
  | str : String → JsInput
  | nonString : JsInput
deriving DecidableEq, Repr

/-- The input guard of sanitizeHtml: a non-string input is coerced to the
empty output rather than erroring. -/
def sanitizeHtmlInput : JsInput → String
  | .nonString => ""
  | .str h => sanitizeHtml h

/-- The function `sanitizeNote` of src/utils/sanitize.ts. -/
def sanitizeNote (note : String) : String := sanitizeHtml note

/-! ### Observers used by the claims -/

mutual
/-- Collect every element of a node as a (tag, attributes) pair. -/
def elemsOfN : Node → List (String × List (String × String))
  | .text _ => []
  | .elem t a c => (t, a) :: elemsOfL c

/-- Collect every element of a forest as (tag, attributes) pairs. -/
def elemsOfL : List Node → List (String × List (String × String))
  | [] => []
  | n :: ns => elemsOfN n ++ elemsOfL ns
end

/-- Case-insensitive substring test on strings. -/
def containsCI (hay pat : String) : Bool :=
  hasInfix (hay.data.map Char.toLower) (pat.data.map Char.toLower)

/-! ### Canonical token stream of a forest (used for re-parse stability) -/

mutual
/-- The token stream produced by tokenizing a node's serialization. -/
def toksN : Node → List Tok
  | .text s => [.text s]
  | .elem t a c =>
    if voidTags.contains t then [.tagOpen t a]
    else .tagOpen t a :: toksL c ++ [.close t]

/-- The token stream of a forest. -/
def toksL : List Node → List Tok
  | [] => []
  | n :: ns => toksN n ++ toksL ns
end

/-! ### Cleanliness: the shape invariant of sanitized forests -/

/-- Check whether a node is a text node. -/
def isTextN : Node → Bool
  | .text _ => true
  | .elem _ _ _ => false

/-- Attribute keys are pairwise distinct. -/
def keysNodup : List (String × String) → Bool
  | [] => true
  | p :: r => !(r.any (fun q => q.1 == p.1)) && keysNodup r

/-- Attribute lists of clean elements: distinct keys, every attribute
passing the policy filter. -/
def attrsClean (attrs : List (String × String)) : Bool :=
  keysNodup attrs && attrs.all attrOK

mutual
/-- A clean node: nonempty text, or an element with an allowed tag, clean
attributes, childless when void, and clean children. -/
def cleanN : Node → Bool
  | .text s => s != ""
  | .elem t a c =>
    ALLOWED_TAGS.contains t && attrsClean a &&
      (!voidTags.contains t || c.isEmpty) && cleanL c

/-- A clean forest: clean nodes with no two adjacent text nodes. -/
def cleanL : List Node → Bool
  | [] => true
  | [n] => cleanN n
  | n1 :: n2 :: r => cleanN n1 && !(isTextN n1 && isTextN n2) && cleanL (n2 :: r)
end

mutual
/-- Well-formedness guaranteed by the tree builder: attribute keys are
deduplicated and void elements are childless. -/
def wfN : Node → Bool
  | .text _ => true
  | .elem t a c => keysNodup a && (!voidTags.contains t || c.isEmpty) && wfL c

/-- Well-formedness of a forest of parsed nodes. -/
def wfL : List Node → Bool
  | [] => true
  | n :: ns => wfN n && wfL ns
end

/-- Lexical well-formedness of a tag name: nonempty, starting with a
lowercase letter, with no character that could end the name early. -/
def tagLex (t : String) : Bool :=
  match t.data with
  | [] => false
  | c :: cs => c.isAlpha && (c.toLower == c) &&
      cs.all (fun d => !(d == '>') && !isWs d && !(d == '/') && (d.toLower == d))

/-- Lexical well-formedness of an attribute name: nonempty lowercase
name with no character that could end the name early. -/
def attrLex (nm : String) : Bool :=
  match nm.data with
  | [] => false
  | c :: cs => !(c == '>') && !isWs c && !(c == '/') && (c.toLower == c) &&
      cs.all (fun d => !(d == '>') && !isWs d && !(d == '/') && !(d == '=') && (d.toLower == d))

/-- Prepend already-emitted tokens to a tokenizer state (the machine is
oblivious to tokens it has already emitted). -/
def addToks (pre : List Tok) : LexSt → LexSt
  | .dat toks acc => .dat (pre ++ toks) acc
  | .lt toks => .lt (pre ++ toks)
  | .tagName toks name => .tagName (pre ++ toks) name
  | .inTag toks t attrs => .inTag (pre ++ toks) t attrs
  | .slash toks t attrs => .slash (pre ++ toks) t attrs
  | .attrName toks t attrs an => .attrName (pre ++ toks) t attrs an
  | .attrAfter toks t attrs an => .attrAfter (pre ++ toks) t attrs an
  | .attrVal toks t attrs an => .attrVal (pre ++ toks) t attrs an
  | .valDq toks t attrs an v => .valDq (pre ++ toks) t attrs an v
  | .valSq toks t attrs an v => .valSq (pre ++ toks) t attrs an v
  | .valUq toks t attrs an v => .valUq (pre ++ toks) t attrs an v
  | .closeStart toks => .closeStart (pre ++ toks)
  | .closeName toks name => .closeName (pre ++ toks) name
  | .closeSkip toks name => .closeSkip (pre ++ toks) name
  | .bang toks => .bang (pre ++ toks)
  | .bang2 toks => .bang2 (pre ++ toks)
  | .comment toks => .comment (pre ++ toks)
  | .commentD1 toks => .commentD1 (pre ++ toks)
  | .commentD2 toks => .commentD2 (pre ++ toks)
  | .bogus toks => .bogus (pre ++ toks)
  | .raw toks t acc => .raw (pre ++ toks) t acc
  | .rawLt toks t acc => .rawLt (pre ++ toks) t acc
  | .rawClose toks t acc part => .rawClose (pre ++ toks) t acc part

/-! ### The StockNotes component (src/components/StockNotes.tsx) -/

/-- A key-value store modelling localStorage. -/
def Store := List (String × String)

/-- Read a key from the store. -/
def getItem (store : Store) (k : String) : Option String := List.lookup k store

/-- Write a key to the store. -/
def setItem (store : Store) (k v : String) : Store :=
  (k, v) :: List.filter (fun p => p.1 != k) store

/-- The per-symbol storage key of StockNotes. -/
def storageKey (symbol : String) : String := "notes:" ++ symbol

/-- The mount-time state initializer of StockNotes: read the stored note,
sanitize it, write the sanitized form back when it differs from a
non-empty stored value, and initialize the state to the sanitized value.
Returns (initial text, attempted writes, resulting store); `writeOk`
models whether the guarded `setItem` call succeeds (its failure is caught
and ignored). -/
def mountResult (symbol : String) (store : Store) (writeOk : Bool) :
    String × List (String × String) × Store :=
  if (getItem store (storageKey symbol)).getD "" ≠
      sanitizeNote ((getItem store (storageKey symbol)).getD "") ∧
      (getItem store (storageKey symbol)).getD "" ≠ "" then
    (sanitizeNote ((getItem store (storageKey symbol)).getD ""),
      [(storageKey symbol, sanitizeNote ((getItem store (storageKey symbol)).getD ""))],
      if writeOk then
        setItem store (storageKey symbol)
          (sanitizeNote ((getItem store (storageKey symbol)).getD ""))
      else store)
  else (sanitizeNote ((getItem store (storageKey symbol)).getD ""), [], store)

/-- The persist effect of StockNotes for a given text state: sanitize and
write; the state is updated to the sanitized text when it differs. -/
def persistWrites (symbol : String) (text : String) : List (String × String) :=
  [(storageKey symbol, sanitizeNote text)]

/-- All setItem calls of a StockNotes session: the mount-time write-back,
the initial persist effect, and one persist effect per user edit. -/
def sessionWrites (symbol : String) (store : Store) (writeOk : Bool)
    (edits : List String) : List (String × String) :=
  let m := mountResult symbol store writeOk
  m.2.1 ++ persistWrites symbol m.1 ++ (edits.map (persistWrites symbol)).flatten

/-! ## Proof development -/

/-! ### Strings and characters -/

theorem mk_data (s : String) : String.mk s.data = s := rfl

theorem data_mk (cs : List Char) : (String.mk cs).data = cs := rfl

/-! ### The decoder inverts the serializer's escaping -/

theorem foldl_decStep_escTextC (c : Char) (out : List Char) :
    (escTextC c).foldl decStep (out, none) = (out ++ [c], none) := by
  by_cases ha : c = '&'
  · subst ha
    simp [escTextC, show "&amp;".data = ['&', 'a', 'm', 'p', ';'] from rfl,
      List.foldl, decStep, entChar, resolveEnt]
  · by_cases hl : c = '<'
    · subst hl
      simp [escTextC, show "&lt;".data = ['&', 'l', 't', ';'] from rfl,
        List.foldl, decStep, entChar, resolveEnt]
    · by_cases hg : c = '>'
      · subst hg
        simp [escTextC, show "&gt;".data = ['&', 'g', 't', ';'] from rfl,
          List.foldl, decStep, entChar, resolveEnt]
      · simp [escTextC, ha, hl, hg, List.foldl, decStep]

theorem foldl_decStep_escText (cs : List Char) (out : List Char) :
    (escText cs).foldl decStep (out, none) = (out ++ cs, none) := by
  induction cs generalizing out with
  | nil => simp [escText]
  | cons c cs ih =>
    simp only [escText, List.foldl_append, foldl_decStep_escTextC, ih]
    simp

theorem decode_escText (cs : List Char) : decode (escText cs) = cs := by
  simp [decode, foldl_decStep_escText, decFinish]

theorem foldl_decStep_escAttrC (c : Char) (out : List Char) :
    (escAttrC c).foldl decStep (out, none) = (out ++ [c], none) := by
  by_cases ha : c = '&'
  · subst ha
    simp [escAttrC, show "&amp;".data = ['&', 'a', 'm', 'p', ';'] from rfl,
      List.foldl, decStep, entChar, resolveEnt]
  · by_cases hq : c = '"'
    · subst hq
      simp [escAttrC, show "&quot;".data = ['&', 'q', 'u', 'o', 't', ';'] from rfl,
        List.foldl, decStep, entChar, resolveEnt]
    · simp [escAttrC, ha, hq, List.foldl, decStep]

theorem foldl_decStep_escAttr (cs : List Char) (out : List Char) :
    (escAttr cs).foldl decStep (out, none) = (out ++ cs, none) := by
  induction cs generalizing out with
  | nil => simp [escAttr]
  | cons c cs ih =>
    simp only [escAttr, List.foldl_append, foldl_decStep_escAttrC, ih]
    simp

theorem decode_escAttr (cs : List Char) : decode (escAttr cs) = cs := by
  simp [decode, foldl_decStep_escAttr, decFinish]

theorem escText_no_lt {cs : List Char} : ∀ c ∈ escText cs, c ≠ '<' := by
  induction cs with
  | nil => simp [escText]
  | cons c cs ih =>
    intro x hx
    simp only [escText, List.mem_append] at hx
    rcases hx with hx | hx
    · by_cases ha : c = '&'
      · subst ha
        simp [escTextC, show "&amp;".data = ['&', 'a', 'm', 'p', ';'] from rfl] at hx
        rcases hx with h | h | h | h | h <;> simp [h]
      · by_cases hl : c = '<'
        · subst hl
          simp [escTextC, show "&lt;".data = ['&', 'l', 't', ';'] from rfl] at hx
          rcases hx with h | h | h | h <;> simp [h]
        · by_cases hg : c = '>'
          · subst hg
            simp [escTextC, show "&gt;".data = ['&', 'g', 't', ';'] from rfl] at hx
            rcases hx with h | h | h | h <;> simp [h]
          · simp [escTextC, ha, hl, hg] at hx
            simp [hx, hl]
    · exact ih x hx

theorem escAttr_no_quot {cs : List Char} : ∀ c ∈ escAttr cs, c ≠ '"' := by
  induction cs with
  | nil => simp [escAttr]
  | cons c cs ih =>
    intro x hx
    simp only [escAttr, List.mem_append] at hx
    rcases hx with hx | hx
    · by_cases ha : c = '&'
      · subst ha
        simp [escAttrC, show "&amp;".data = ['&', 'a', 'm', 'p', ';'] from rfl] at hx
        rcases hx with h | h | h | h | h <;> simp [h]
      · by_cases hq : c = '"'
        · subst hq
          simp [escAttrC, show "&quot;".data = ['&', 'q', 'u', 'o', 't', ';'] from rfl] at hx
          rcases hx with h | h | h | h | h | h <;> simp [h]
        · simp [escAttrC, ha, hq] at hx
          simp [hx, hq]
    · exact ih x hx

/-! ### The tokenizer is oblivious to already-emitted tokens -/

theorem emitText_append (pre toks : List Tok) (acc : List Char) :
    emitText (pre ++ toks) acc = pre ++ emitText toks acc := by
  unfold emitText
  split <;> simp

theorem emitRaw_append (pre toks : List Tok) (acc : List Char) :
    emitRaw (pre ++ toks) acc = pre ++ emitRaw toks acc := by
  unfold emitRaw
  split <;> simp

theorem finishTag_addToks (pre toks : List Tok) (t : String) (a : List (String × String)) :
    finishTag (pre ++ toks) t a = addToks pre (finishTag toks t a) := by
  unfold finishTag
  split <;> simp [addToks]

theorem rawFallback_addToks (pre toks : List Tok) (t : String) (acc part : List Char) (c : Char) :
    rawFallback (pre ++ toks) t acc part c = addToks pre (rawFallback toks t acc part c) := by
  unfold rawFallback
  split <;> simp [addToks]

theorem lexStep_addToks (pre : List Tok) (st : LexSt) (c : Char) :
    lexStep (addToks pre st) c = addToks pre (lexStep st c) := by
  cases st <;>
    simp only [lexStep, addToks] <;>
    split_ifs <;>
    simp [addToks, emitText_append, emitRaw_append, finishTag_addToks, rawFallback_addToks,
      List.append_assoc]

theorem foldl_lexStep_addToks (cs : List Char) (pre : List Tok) (st : LexSt) :
    cs.foldl lexStep (addToks pre st) = addToks pre (cs.foldl lexStep st) := by
  induction cs generalizing st with
  | nil => rfl
  | cons c cs ih => simp only [List.foldl, lexStep_addToks, ih]

theorem lexFinish_addToks (pre : List Tok) (st : LexSt) :
    lexFinish (addToks pre st) = pre ++ lexFinish st := by
  cases st <;>
    simp [lexFinish, addToks, emitText_append, emitRaw_append, List.append_assoc]

/-! ### Lexical facts about the concrete policy -/

theorem allowed_tagLex {t : String} (h : ALLOWED_TAGS.contains t = true) : tagLex t = true := by
  have hm : t ∈ ALLOWED_TAGS := by simpa using h
  fin_cases hm <;> decide

theorem allowed_not_raw {t : String} (h : ALLOWED_TAGS.contains t = true) :
    rawTextTag t = false := by
  have hm : t ∈ ALLOWED_TAGS := by simpa using h
  fin_cases hm <;> decide

theorem allowed_attrLex {nm : String} (h : ALLOWED_ATTR.contains nm = true) :
    attrLex nm = true := by
  have hm : nm ∈ ALLOWED_ATTR := by simpa using h
  fin_cases hm <;> decide

/-! ### Running the tokenizer over serialized constructs -/

theorem foldl_dat_no_lt (cs : List Char) (h : ∀ c ∈ cs, c ≠ '<') (toks : List Tok)
    (acc : List Char) : cs.foldl lexStep (.dat toks acc) = .dat toks (acc ++ cs) := by
  induction cs generalizing acc with
  | nil => simp
  | cons c cs ih =>
    have hc : (c == '<') = false := by
      simp [h c (by simp)]
    simp only [List.foldl, lexStep, hc, Bool.false_eq_true, if_false]
    rw [ih (fun d hd => h d (by simp [hd]))]
    simp

theorem foldl_tagName (cs : List Char)
    (h : ∀ c ∈ cs, (c == '>') = false ∧ isWs c = false ∧ (c == '/') = false ∧ c.toLower = c)
    (toks : List Tok) (name : List Char) :
    cs.foldl lexStep (.tagName toks name) = .tagName toks (name ++ cs) := by
  induction cs generalizing name with
  | nil => simp
  | cons c cs ih =>
    obtain ⟨h1, h2, h3, h4⟩ := h c (by simp)
    simp only [List.foldl, lexStep, h1, h2, h3, Bool.false_eq_true, if_false, h4]
    rw [ih (fun d hd => h d (by simp [hd]))]
    simp

theorem foldl_closeName (cs : List Char)
    (h : ∀ c ∈ cs, (c == '>') = false ∧ isWs c = false ∧ (c == '/') = false ∧ c.toLower = c)
    (toks : List Tok) (name : List Char) :
    cs.foldl lexStep (.closeName toks name) = .closeName toks (name ++ cs) := by
  induction cs generalizing name with
  | nil => simp
  | cons c cs ih =>
    obtain ⟨h1, h2, h3, h4⟩ := h c (by simp)
    simp only [List.foldl, lexStep, h1, h2, h3, Bool.false_eq_true, Bool.or_self, if_false, h4]
    rw [ih (fun d hd => h d (by simp [hd]))]
    simp

theorem foldl_attrName (cs : List Char)
    (h : ∀ c ∈ cs, (c == '>') = false ∧ isWs c = false ∧ (c == '/') = false ∧
      (c == '=') = false ∧ c.toLower = c)
    (toks : List Tok) (t : String) (attrs : List (String × String)) (an : List Char) :
    cs.foldl lexStep (.attrName toks t attrs an) = .attrName toks t attrs (an ++ cs) := by
  induction cs generalizing an with
  | nil => simp
  | cons c cs ih =>
    obtain ⟨h1, h2, h3, h4, h5⟩ := h c (by simp)
    simp only [List.foldl, lexStep, h1, h2, h3, h4, Bool.false_eq_true, if_false, h5]
    rw [ih (fun d hd => h d (by simp [hd]))]
    simp

theorem foldl_valDq (cs : List Char) (h : ∀ c ∈ cs, c ≠ '"') (toks : List Tok)
    (t : String) (attrs : List (String × String)) (an : String) (v : List Char) :
    cs.foldl lexStep (.valDq toks t attrs an v) = .valDq toks t attrs an (v ++ cs) := by
  induction cs generalizing v with
  | nil => simp
  | cons c cs ih =>
    have hc : (c == '"') = false := by simp [h c (by simp)]
    simp only [List.foldl, lexStep, hc, Bool.false_eq_true, if_false]
    rw [ih (fun d hd => h d (by simp [hd]))]
    simp

theorem tagLex_shape {t : String} (h : tagLex t = true) :
    ∃ c cs, t.data = c :: cs ∧ c.isAlpha = true ∧ c.toLower = c ∧
      ∀ d ∈ cs, (d == '>') = false ∧ isWs d = false ∧ (d == '/') = false ∧ d.toLower = d := by
  unfold tagLex at h
  split at h
  · exact absurd h (by simp)
  · rename_i c cs hd
    simp only [Bool.and_eq_true, List.all_eq_true, Bool.not_eq_true'] at h
    obtain ⟨⟨h1, h2⟩, h3⟩ := h
    refine ⟨c, cs, hd, h1, eq_of_beq h2, fun d hd' => ?_⟩
    obtain ⟨⟨⟨g1, g2⟩, g3⟩, g4⟩ := h3 d hd'
    exact ⟨g1, g2, g3, eq_of_beq g4⟩

theorem attrLex_shape {nm : String} (h : attrLex nm = true) :
    ∃ c cs, nm.data = c :: cs ∧ (c == '>') = false ∧ isWs c = false ∧ (c == '/') = false ∧
      c.toLower = c ∧
      ∀ d ∈ cs, (d == '>') = false ∧ isWs d = false ∧ (d == '/') = false ∧
        (d == '=') = false ∧ d.toLower = d := by
  unfold attrLex at h
  split at h
  · exact absurd h (by simp)
  · rename_i c cs hd
    simp only [Bool.and_eq_true, List.all_eq_true, Bool.not_eq_true'] at h
    obtain ⟨⟨⟨⟨h1, h2⟩, h3⟩, h4⟩, h5⟩ := h
    refine ⟨c, cs, hd, h1, h2, h3, eq_of_beq h4, fun d hd' => ?_⟩
    obtain ⟨⟨⟨⟨g1, g2⟩, g3⟩, g4⟩, g5⟩ := h5 d hd'
    exact ⟨g1, g2, g3, g4, eq_of_beq g5⟩

theorem step_inTag_name {c : Char} (h1 : (c == '>') = false) (h2 : isWs c = false)
    (h3 : (c == '/') = false) (toks : List Tok) (t : String)
    (attrs : List (String × String)) :
    lexStep (.inTag toks t attrs) c = .attrName toks t attrs [c.toLower] := by
  simp [lexStep, h1, h2, h3]

theorem step_lt_alpha {c : Char} (h1 : c.isAlpha = true) (toks : List Tok) :
    lexStep (.lt toks) c = .tagName toks [c.toLower] := by
  simp [lexStep, h1]

theorem step_closeStart_alpha {c : Char} (h1 : c.isAlpha = true) (toks : List Tok) :
    lexStep (.closeStart toks) c = .closeName toks [c.toLower] := by
  simp [lexStep, h1]

theorem foldl_attrsGt (a : List (String × String))
    (h : ∀ p ∈ a, attrLex p.1 = true) (toks : List Tok) (t : String)
    (pre : List (String × String)) :
    (serAttrs a ++ ['>']).foldl lexStep (.inTag toks t pre) = finishTag toks t (pre ++ a) := by
  induction a generalizing pre with
  | nil => simp [serAttrs, List.foldl, lexStep]
  | cons p rest ih =>
    obtain ⟨n, v⟩ := p
    obtain ⟨c, cs, hd, h1, h2, h3, h4, h5⟩ := attrLex_shape (h (n, v) (by simp))
    have hd' : n.data = c :: cs := hd
    have hser : serAttrs ((n, v) :: rest) ++ ['>'] =
        ' ' :: c :: (cs ++ ('=' :: '"' ::
          (escAttr v.data ++ ('"' :: (serAttrs rest ++ ['>']))))) := by
      simp [serAttrs, serAttr, hd']
    rw [hser]
    simp only [List.foldl_cons]
    rw [show lexStep (.inTag toks t pre) ' ' = .inTag toks t pre from rfl]
    rw [step_inTag_name h1 h2 h3, h4]
    rw [List.foldl_append, foldl_attrName cs h5]
    simp only [List.singleton_append, List.foldl_cons]
    rw [show lexStep (LexSt.attrName toks t pre (c :: cs)) '=' =
      .attrVal toks t pre (String.mk (c :: cs)) from rfl]
    rw [show lexStep (LexSt.attrVal toks t pre (String.mk (c :: cs))) '"' =
      .valDq toks t pre (String.mk (c :: cs)) [] from rfl]
    rw [List.foldl_append, foldl_valDq (escAttr v.data) escAttr_no_quot]
    simp only [List.nil_append, List.foldl_cons]
    rw [show lexStep (LexSt.valDq toks t pre (String.mk (c :: cs)) (escAttr v.data)) '"' =
      .inTag toks t (pushAttr pre (String.mk (c :: cs))
        (String.mk (decode (escAttr v.data)))) from rfl]
    rw [decode_escAttr, show String.mk (c :: cs) = n from hd' ▸ mk_data n, mk_data]
    rw [ih (fun q hq => h q (by simp [hq]))]
    simp [pushAttr]

theorem run_openTag (t : String) (a : List (String × String)) (ht : tagLex t = true)
    (ha : ∀ p ∈ a, attrLex p.1 = true) (toks : List Tok) :
    ('<' :: (t.data ++ (serAttrs a ++ ['>']))).foldl lexStep (.dat toks []) =
      finishTag toks t a := by
  obtain ⟨c, cs, hd, h1, h2, h3⟩ := tagLex_shape ht
  have hmk : String.mk (c :: cs) = t := hd ▸ mk_data t
  rw [hd]
  simp only [List.cons_append, List.foldl_cons]
  rw [show lexStep (.dat toks []) '<' = .lt toks from rfl]
  rw [step_lt_alpha h1, h2]
  rw [List.foldl_append, foldl_tagName cs h3]
  simp only [List.singleton_append]
  cases a with
  | nil =>
    simp only [serAttrs, List.nil_append, List.foldl_cons, List.foldl_nil]
    rw [show lexStep (LexSt.tagName toks (c :: cs)) '>' =
      finishTag toks (String.mk (c :: cs)) [] from rfl, hmk]
  | cons q qs =>
    have hq : List.foldl lexStep (.inTag toks t []) (serAttrs (q :: qs) ++ ['>']) =
        finishTag toks t (q :: qs) := by
      simpa using foldl_attrsGt (q :: qs) ha toks t []
    have hser : serAttrs (q :: qs) ++ ['>'] =
        ' ' :: (q.1.data ++ ('=' :: '"' ::
          (escAttr q.2.data ++ ('"' :: (serAttrs qs ++ ['>']))))) := by
      simp [serAttrs, serAttr]
    rw [hser] at hq ⊢
    simp only [List.foldl_cons] at hq ⊢
    rw [show lexStep (LexSt.tagName toks (c :: cs)) ' ' =
      .inTag toks (String.mk (c :: cs)) [] from rfl, hmk]
    rw [show lexStep (.inTag toks t []) ' ' = .inTag toks t [] from rfl] at hq
    exact hq

theorem run_closeTag (t : String) (ht : tagLex t = true) (toks : List Tok) :
    ('<' :: '/' :: (t.data ++ ['>'])).foldl lexStep (.dat toks []) =
      .dat (toks ++ [.close t]) [] := by
  obtain ⟨c, cs, hd, h1, h2, h3⟩ := tagLex_shape ht
  have hmk : String.mk (c :: cs) = t := hd ▸ mk_data t
  rw [hd]
  simp only [List.cons_append, List.foldl_cons]
  rw [show lexStep (.dat toks []) '<' = .lt toks from rfl]
  rw [show lexStep (.lt toks) '/' = .closeStart toks from rfl]
  rw [step_closeStart_alpha h1, h2]
  rw [List.foldl_append, foldl_closeName cs h3]
  simp only [List.singleton_append, List.foldl_cons, List.foldl_nil]
  rw [show lexStep (LexSt.closeName toks (c :: cs)) '>' =
    .dat (toks ++ [.close (String.mk (c :: cs))]) [] from rfl, hmk]

/-! ### Support lemmas for the round trip -/

theorem escTextC_ne_nil (c : Char) : escTextC c ≠ [] := by
  unfold escTextC
  split_ifs <;> simp

theorem escText_ne_nil {cs : List Char} (h : cs ≠ []) : escText cs ≠ [] := by
  cases cs with
  | nil => exact absurd rfl h
  | cons c cs =>
    simp only [escText]
    intro hx
    exact escTextC_ne_nil c (List.append_eq_nil.mp hx).1

theorem ne_empty_data {s : String} (h : s ≠ "") : s.data ≠ [] := by
  intro hd
  apply h
  cases s with
  | mk d =>
    have hd' : d = [] := hd
    subst hd'
    rfl

theorem cleanL_head {x : Node} {ys : List Node} (h : cleanL (x :: ys) = true) :
    cleanN x = true := by
  cases ys with
  | nil => simpa [cleanL] using h
  | cons y r =>
    simp only [cleanL, Bool.and_eq_true] at h
    exact h.1.1

theorem cleanL_tail {x : Node} {ys : List Node} (h : cleanL (x :: ys) = true) :
    cleanL ys = true := by
  cases ys with
  | nil => rfl
  | cons y r =>
    simp only [cleanL, Bool.and_eq_true] at h
    exact h.2

theorem cleanL_sep {x y : Node} {r : List Node} (h : cleanL (x :: y :: r) = true) :
    (isTextN x && isTextN y) = false := by
  simp only [cleanL, Bool.and_eq_true, Bool.not_eq_true'] at h
  exact h.1.2

theorem cleanN_elem {t : String} {a : List (String × String)} {c : List Node}
    (h : cleanN (.elem t a c) = true) :
    ALLOWED_TAGS.contains t = true ∧ attrsClean a = true ∧
      (voidTags.contains t = true → c = []) ∧ cleanL c = true := by
  simp only [cleanN, Bool.and_eq_true] at h
  obtain ⟨⟨⟨h1, h2⟩, h3⟩, h4⟩ := h
  refine ⟨h1, h2, fun hv => ?_, h4⟩
  simp only [Bool.or_eq_true, Bool.not_eq_true'] at h3
  rcases h3 with hv' | he
  · rw [hv] at hv'
    exact absurd hv' (by simp)
  · simpa using he

theorem attrsClean_attrLex {a : List (String × String)} (h : attrsClean a = true) :
    ∀ p ∈ a, attrLex p.1 = true := by
  intro p hp
  simp only [attrsClean, Bool.and_eq_true, List.all_eq_true] at h
  have := h.2 p hp
  simp only [attrOK, Bool.and_eq_true] at this
  exact allowed_attrLex this.1.1

theorem dat_restart (toks : List Tok) (acc : List Char) (tail : List Char)
    (h : tail = [] ∨ ∃ r', tail = '<' :: r') :
    lexFinish (tail.foldl lexStep (.dat toks acc)) =
      emitText toks acc ++ lexFinish (tail.foldl lexStep (.dat [] [])) := by
  rcases h with h | ⟨r', h⟩
  · subst h
    simp [lexFinish, emitText]
  · subst h
    simp only [List.foldl_cons]
    rw [show lexStep (.dat toks acc) '<' = .lt (emitText toks acc) from by
      simp [lexStep]]
    rw [show lexStep (.dat [] []) '<' = .lt ([] : List Tok) from by
      simp [lexStep, emitText]]
    rw [show LexSt.lt (emitText toks acc) = addToks (emitText toks acc) (.lt []) from by
      simp [addToks]]
    rw [foldl_lexStep_addToks, lexFinish_addToks]

theorem addToks_restart (toks : List Tok) (tail : List Char) :
    lexFinish (tail.foldl lexStep (.dat toks [])) =
      toks ++ lexFinish (tail.foldl lexStep (.dat [] [])) := by
  rw [show LexSt.dat toks [] = addToks toks (.dat [] []) from by simp [addToks]]
  rw [foldl_lexStep_addToks, lexFinish_addToks]

/-! ### Tokenizing a serialized clean forest reproduces its token stream -/

theorem tokenize_ser_strong (n : Nat) : ∀ ts : List Node, sizeOf ts ≤ n → cleanL ts = true →
    ∀ rest : List Char, (rest = [] ∨ ∃ r', rest = '<' :: r') →
    lexFinish ((serList ts ++ rest).foldl lexStep (.dat [] [])) =
      toksL ts ++ lexFinish (rest.foldl lexStep (.dat [] [])) := by
  induction n using Nat.strong_induction_on with
  | _ n ih =>
    intro ts hsz hclean rest hrest
    match ts with
    | [] => simp [serList, toksL]
    | .text s :: ts' =>
      have hs : s ≠ "" := by
        have := cleanL_head hclean
        simpa [cleanN] using this
      have hszt : sizeOf ts' < sizeOf (Node.text s :: ts') := by
        simp
      have hbound : serList ts' ++ rest = [] ∨ ∃ r', serList ts' ++ rest = '<' :: r' := by
        cases ts' with
        | nil =>
          simpa [serList] using hrest
        | cons n2 r2 =>
          cases n2 with
          | text s2 =>
            have := cleanL_sep hclean
            simp [isTextN] at this
          | elem t2 a2 c2 =>
            exact Or.inr ⟨t2.data ++ serAttrs a2 ++ ['>'] ++
              (if voidTags.contains t2 then [] else
                serList c2 ++ '<' :: '/' :: t2.data ++ ['>']) ++ (serList r2 ++ rest), by
              simp [serList, serNode]⟩
      have hesc : escText s.data ≠ [] := escText_ne_nil (ne_empty_data hs)
      calc lexFinish ((serList (Node.text s :: ts') ++ rest).foldl lexStep (.dat [] []))
          = lexFinish ((serList ts' ++ rest).foldl lexStep (.dat [] (escText s.data))) := by
            rw [show serList (Node.text s :: ts') ++ rest =
              escText s.data ++ (serList ts' ++ rest) from by simp [serList, serNode]]
            rw [List.foldl_append, foldl_dat_no_lt (escText s.data) escText_no_lt]
            simp
        _ = emitText [] (escText s.data) ++
              lexFinish ((serList ts' ++ rest).foldl lexStep (.dat [] [])) :=
            dat_restart [] (escText s.data) _ hbound
        _ = [.text s] ++ (toksL ts' ++ lexFinish (rest.foldl lexStep (.dat [] []))) := by
            rw [ih (sizeOf ts') (lt_of_lt_of_le hszt hsz) ts' le_rfl (cleanL_tail hclean)
              rest hrest]
            simp [emitText, hesc, decode_escText, mk_data]
        _ = toksL (Node.text s :: ts') ++ lexFinish (rest.foldl lexStep (.dat [] [])) := by
            simp [toksL, toksN]
    | .elem t a c :: ts' =>
      obtain ⟨htag, hattrs, hvoid, hcc⟩ := cleanN_elem (cleanL_head hclean)
      have htl : tagLex t = true := allowed_tagLex htag
      have hal : ∀ p ∈ a, attrLex p.1 = true := attrsClean_attrLex hattrs
      have hraw : rawTextTag t = false := allowed_not_raw htag
      have hszt : sizeOf ts' < sizeOf (Node.elem t a c :: ts') := by
        simp
      have hszc : sizeOf c < sizeOf (Node.elem t a c :: ts') := by
        simp
        omega
      have hfin : finishTag ([] : List Tok) t a = .dat [.tagOpen t a] [] := by
        simp [finishTag, hraw]
      by_cases hv : voidTags.contains t = true
      · have hvm : t ∈ voidTags := by simpa using hv
        have hc0 : c = [] := hvoid hv
        subst hc0
        calc lexFinish ((serList (Node.elem t a [] :: ts') ++ rest).foldl lexStep (.dat [] []))
            = lexFinish ((serList ts' ++ rest).foldl lexStep (.dat [.tagOpen t a] [])) := by
              rw [show serList (Node.elem t a [] :: ts') ++ rest =
                ('<' :: (t.data ++ (serAttrs a ++ ['>']))) ++ (serList ts' ++ rest) from by
                  simp [serList, serNode, hvm]]
              rw [List.foldl_append, run_openTag t a htl hal, hfin]
          _ = [.tagOpen t a] ++ (toksL ts' ++ lexFinish (rest.foldl lexStep (.dat [] []))) := by
              rw [addToks_restart, ih (sizeOf ts') (lt_of_lt_of_le hszt hsz) ts' le_rfl
                (cleanL_tail hclean) rest hrest]
          _ = toksL (Node.elem t a [] :: ts') ++ lexFinish (rest.foldl lexStep (.dat [] [])) := by
              simp [toksL, toksN, hvm]
      · have hvm' : t ∉ voidTags := by simpa using hv
        have hrestc : ('<' :: '/' :: (t.data ++ ['>'])) ++ (serList ts' ++ rest) = [] ∨
            ∃ r', ('<' :: '/' :: (t.data ++ ['>'])) ++ (serList ts' ++ rest) = '<' :: r' :=
          Or.inr ⟨'/' :: ((t.data ++ ['>']) ++ (serList ts' ++ rest)), by simp⟩
        calc lexFinish ((serList (Node.elem t a c :: ts') ++ rest).foldl lexStep (.dat [] []))
            = lexFinish ((serList c ++ (('<' :: '/' :: (t.data ++ ['>'])) ++
                (serList ts' ++ rest))).foldl lexStep (.dat [.tagOpen t a] [])) := by
              rw [show serList (Node.elem t a c :: ts') ++ rest =
                ('<' :: (t.data ++ (serAttrs a ++ ['>']))) ++ (serList c ++
                  (('<' :: '/' :: (t.data ++ ['>'])) ++ (serList ts' ++ rest))) from by
                  simp [serList, serNode, hvm']]
              rw [List.foldl_append, run_openTag t a htl hal, hfin]
          _ = [.tagOpen t a] ++ (toksL c ++ lexFinish ((('<' :: '/' :: (t.data ++ ['>'])) ++
                (serList ts' ++ rest)).foldl lexStep (.dat [] []))) := by
              rw [addToks_restart, ih (sizeOf c) (lt_of_lt_of_le hszc hsz) c le_rfl hcc
                _ hrestc]
          _ = [.tagOpen t a] ++ (toksL c ++ ([.close t] ++
                (toksL ts' ++ lexFinish (rest.foldl lexStep (.dat [] []))))) := by
              rw [List.foldl_append, run_closeTag t htl, addToks_restart,
                ih (sizeOf ts') (lt_of_lt_of_le hszt hsz) ts' le_rfl
                  (cleanL_tail hclean) rest hrest]
              simp
          _ = toksL (Node.elem t a c :: ts') ++ lexFinish (rest.foldl lexStep (.dat [] [])) := by
              simp [toksL, toksN, hvm']

/-- Tokenizing the serialization of a clean forest yields its canonical
token stream. -/
theorem tokenize_serList {ts : List Node} (h : cleanL ts = true) :
    tokenize (serList ts) = toksL ts := by
  have := tokenize_ser_strong (sizeOf ts) ts le_rfl h [] (Or.inl rfl)
  simpa [tokenize, lexFinish, emitText] using this

/-! ### Building the canonical token stream reproduces the forest -/

theorem keysNodup_cons {p : String × String} {r : List (String × String)}
    (h : keysNodup (p :: r) = true) :
    r.any (fun q => q.1 == p.1) = false ∧ keysNodup r = true := by
  simp only [keysNodup, Bool.and_eq_true, Bool.not_eq_true'] at h
  exact h

theorem dedupAttrs_id : ∀ (a : List (String × String)) (seen : List String),
    keysNodup a = true → (∀ p ∈ a, seen.contains p.1 = false) →
    dedupAttrs seen a = a := by
  intro a
  induction a with
  | nil => intro seen _ _; rfl
  | cons p rest ih =>
    intro seen hnd hseen
    obtain ⟨hany, hnd'⟩ := keysNodup_cons hnd
    rw [dedupAttrs, if_neg (by rw [hseen p (by simp)]; simp)]
    congr 1
    apply ih _ hnd'
    intro q hq
    have h1 : q.1 ∉ seen := by simpa using hseen q (by simp [hq])
    have h2 : q.1 ≠ p.1 := by
      intro hc
      have h3 : rest.any (fun x => x.1 == p.1) = true :=
        List.any_eq_true.mpr ⟨q, hq, by simp [hc]⟩
      simp [h3] at hany
    simp [h1, h2]

theorem attrsClean_nodup {a : List (String × String)} (h : attrsClean a = true) :
    keysNodup a = true := by
  simp only [attrsClean, Bool.and_eq_true] at h
  exact h.1

theorem build_toks_strong (n : Nat) : ∀ ts : List Node, sizeOf ts ≤ n → cleanL ts = true →
    ∀ (rest : List Tok) (st : List Frame) (acc : List Node),
    (toksL ts ++ rest).foldl bstep (st, acc) = rest.foldl bstep (st, acc ++ ts) := by
  induction n using Nat.strong_induction_on with
  | _ n ih =>
    intro ts hsz hclean rest st acc
    match ts with
    | [] => simp [toksL]
    | .text s :: ts' =>
      have hszt : sizeOf ts' < sizeOf (Node.text s :: ts') := by
        simp
      calc (toksL (Node.text s :: ts') ++ rest).foldl bstep (st, acc)
          = (toksL ts' ++ rest).foldl bstep (st, acc ++ [Node.text s]) := by
            rw [show toksL (Node.text s :: ts') ++ rest =
              Tok.text s :: (toksL ts' ++ rest) from by simp [toksL, toksN]]
            rfl
        _ = rest.foldl bstep (st, (acc ++ [Node.text s]) ++ ts') :=
            ih (sizeOf ts') (lt_of_lt_of_le hszt hsz) ts' le_rfl (cleanL_tail hclean) rest st _
        _ = rest.foldl bstep (st, acc ++ (Node.text s :: ts')) := by
            simp
    | .elem t a c :: ts' =>
      obtain ⟨htag, hattrs, hvoid, hcc⟩ := cleanN_elem (cleanL_head hclean)
      have hnd : keysNodup a = true := attrsClean_nodup hattrs
      have hded : dedupAttrs [] a = a := dedupAttrs_id a [] hnd (by intro p _; rfl)
      have hszt : sizeOf ts' < sizeOf (Node.elem t a c :: ts') := by
        simp
      have hszc : sizeOf c < sizeOf (Node.elem t a c :: ts') := by
        simp
        omega
      by_cases hv : voidTags.contains t = true
      · have hvm : t ∈ voidTags := by simpa using hv
        have hc0 : c = [] := hvoid hv
        subst hc0
        calc (toksL (Node.elem t a [] :: ts') ++ rest).foldl bstep (st, acc)
            = (toksL ts' ++ rest).foldl bstep (st, acc ++ [Node.elem t a []]) := by
              rw [show toksL (Node.elem t a [] :: ts') ++ rest =
                Tok.tagOpen t a :: (toksL ts' ++ rest) from by simp [toksL, toksN, hvm]]
              simp only [List.foldl_cons, bstep, hv, if_true, hded]
          _ = rest.foldl bstep (st, (acc ++ [Node.elem t a []]) ++ ts') :=
              ih (sizeOf ts') (lt_of_lt_of_le hszt hsz) ts' le_rfl (cleanL_tail hclean) rest st _
          _ = rest.foldl bstep (st, acc ++ (Node.elem t a [] :: ts')) := by
              simp
      · have hv' : voidTags.contains t = false := by simpa using hv
        have hvm' : t ∉ voidTags := by simpa using hv
        calc (toksL (Node.elem t a c :: ts') ++ rest).foldl bstep (st, acc)
            = (toksL c ++ (Tok.close t :: (toksL ts' ++ rest))).foldl bstep
                ((t, a, acc) :: st, []) := by
              rw [show toksL (Node.elem t a c :: ts') ++ rest =
                Tok.tagOpen t a :: (toksL c ++ (Tok.close t :: (toksL ts' ++ rest))) from by
                  simp [toksL, toksN, hvm']]
              simp only [List.foldl_cons, bstep, hv', Bool.false_eq_true, if_false, hded]
          _ = (Tok.close t :: (toksL ts' ++ rest)).foldl bstep ((t, a, acc) :: st, c) := by
              have := ih (sizeOf c) (lt_of_lt_of_le hszc hsz) c le_rfl hcc
                (Tok.close t :: (toksL ts' ++ rest)) ((t, a, acc) :: st) []
              simpa using this
          _ = (toksL ts' ++ rest).foldl bstep (st, acc ++ [Node.elem t a c]) := by
              simp only [List.foldl_cons, bstep, List.map_cons, List.contains_cons,
                BEq.refl, Bool.true_or, if_true, closeUpTo, if_pos rfl]
          _ = rest.foldl bstep (st, acc ++ (Node.elem t a c :: ts')) := by
              rw [ih (sizeOf ts') (lt_of_lt_of_le hszt hsz) ts' le_rfl
                (cleanL_tail hclean) rest st _]
              simp

/-- Building the canonical token stream of a clean forest reproduces it. -/
theorem build_toksL {ts : List Node} (h : cleanL ts = true) : build (toksL ts) = ts := by
  unfold build
  have := build_toks_strong (sizeOf ts) ts le_rfl h [] [] []
  simp only [List.append_nil] at this
  rw [this]
  rfl

/-- Round trip: parsing the serialization of a clean forest reproduces it. -/
theorem parse_serList {ts : List Node} (h : cleanL ts = true) :
    parse (String.mk (serList ts)) = ts := by
  unfold parse
  rw [data_mk, tokenize_serList h, build_toksL h]

/-! ### Sanitization fixes clean forests -/

theorem allowed_not_forbid {t : String} (h : ALLOWED_TAGS.contains t = true) :
    FORBID_TAGS.contains t = false := by
  have hm : t ∈ ALLOWED_TAGS := by simpa using h
  fin_cases hm <;> decide

theorem coalesce_clean : ∀ ts : List Node, cleanL ts = true → coalesce ts = ts := by
  intro ts
  induction ts with
  | nil => intro _; rfl
  | cons x rest ih =>
    intro h
    cases x with
    | elem t a c =>
      rw [coalesce, ih (cleanL_tail h)]
    | text s =>
      have hs : s ≠ "" := by simpa [cleanN] using cleanL_head h
      rw [coalesce, if_neg hs, ih (cleanL_tail h)]
      cases rest with
      | nil => rfl
      | cons y r2 =>
        cases y with
        | text s2 =>
          have := cleanL_sep h
          simp [isTextN] at this
        | elem t2 a2 c2 => rfl

theorem filterAttrs_clean {a : List (String × String)} (h : attrsClean a = true) :
    filterAttrs a = a := by
  simp only [attrsClean, Bool.and_eq_true, List.all_eq_true] at h
  exact List.filter_eq_self.mpr h.2

mutual
theorem sanN_clean : ∀ n : Node, cleanN n = true → sanitizeNode n = [n]
  | .text s, _ => rfl
  | .elem t a c, h => by
    obtain ⟨htag, hattrs, _, hcc⟩ := cleanN_elem h
    rw [sanitizeNode, if_neg (by rw [allowed_not_forbid htag]; simp), if_pos htag,
      sanL_clean c hcc, coalesce_clean c hcc, filterAttrs_clean hattrs]

theorem sanL_clean : ∀ ts : List Node, cleanL ts = true → sanitizeList ts = ts
  | [], _ => rfl
  | x :: rest, h => by
    rw [sanitizeList, sanN_clean x (cleanL_head h), sanL_clean rest (cleanL_tail h)]
    rfl
end

/-! ### The tree builder produces well-formed forests -/

theorem wfL_append {xs ys : List Node} (hx : wfL xs = true) (hy : wfL ys = true) :
    wfL (xs ++ ys) = true := by
  induction xs with
  | nil => simpa using hy
  | cons x r ih =>
    simp only [wfL, Bool.and_eq_true] at hx
    simp only [List.cons_append, wfL, Bool.and_eq_true]
    exact ⟨hx.1, ih hx.2⟩

theorem dedupAttrs_not_seen : ∀ (a : List (String × String)) (seen : List String),
    ∀ q ∈ dedupAttrs seen a, seen.contains q.1 = false := by
  intro a
  induction a with
  | nil => intro seen q hq; simp [dedupAttrs] at hq
  | cons p rest ih =>
    intro seen q hq
    rw [dedupAttrs] at hq
    split at hq
    · exact ih seen q hq
    · rename_i hc
      rcases (List.mem_cons).mp hq with hq1 | hq2
      · subst hq1
        simpa using hc
      · have := ih (seen ++ [p.1]) q hq2
        have hnm : q.1 ∉ seen ++ [p.1] := by simpa using this
        simp only [List.mem_append, not_or] at hnm
        simpa using hnm.1

theorem keysNodup_dedupAttrs : ∀ (a : List (String × String)) (seen : List String),
    keysNodup (dedupAttrs seen a) = true := by
  intro a
  induction a with
  | nil => intro seen; rfl
  | cons p rest ih =>
    intro seen
    rw [dedupAttrs]
    split
    · exact ih seen
    · simp only [keysNodup, Bool.and_eq_true, Bool.not_eq_true']
      refine ⟨?_, ih (seen ++ [p.1])⟩
      cases hb : (dedupAttrs (seen ++ [p.1]) rest).any (fun q => q.1 == p.1) with
      | false => rfl
      | true =>
        obtain ⟨q, hq, hbeq⟩ := List.any_eq_true.mp hb
        have := dedupAttrs_not_seen rest (seen ++ [p.1]) q hq
        have hnm : q.1 ∉ seen ++ [p.1] := by simpa using this
        simp only [List.mem_append, not_or] at hnm
        exact absurd (by simpa using hbeq) (by simpa using hnm.2)

theorem closeUpTo_wf : ∀ (st : List Frame) (acc : List Node) (t : String),
    (∀ f ∈ st, voidTags.contains f.1 = false ∧ keysNodup f.2.1 = true ∧ wfL f.2.2 = true) →
    wfL acc = true →
    (∀ f ∈ (closeUpTo t st acc).1, voidTags.contains f.1 = false ∧
      keysNodup f.2.1 = true ∧ wfL f.2.2 = true) ∧ wfL (closeUpTo t st acc).2 = true := by
  intro st
  induction st with
  | nil => intro acc t _ hacc; exact ⟨by simp [closeUpTo], by simpa [closeUpTo] using hacc⟩
  | cons f st' ih =>
    intro acc t hst hacc
    obtain ⟨t', a', acc'⟩ := f
    obtain ⟨hv, hnd, hwf⟩ := hst (t', a', acc') (by simp)
    have hv' : voidTags.contains t' = false := hv
    have hnd' : keysNodup a' = true := hnd
    have hwf' : wfL acc' = true := hwf
    have hel : wfL (acc' ++ [Node.elem t' a' acc]) = true := by
      apply wfL_append hwf'
      simp [wfL, wfN, hnd', hacc]
      exact Or.inl (by simpa using hv')
    rw [closeUpTo]
    split
    · exact ⟨fun g hg => hst g (by simp [hg]), hel⟩
    · exact ih _ t (fun g hg => hst g (by simp [hg])) hel

theorem foldl_bstep_wf : ∀ (toks : List Tok) (st : List Frame) (acc : List Node),
    (∀ f ∈ st, voidTags.contains f.1 = false ∧ keysNodup f.2.1 = true ∧ wfL f.2.2 = true) →
    wfL acc = true →
    (∀ f ∈ (toks.foldl bstep (st, acc)).1, voidTags.contains f.1 = false ∧
      keysNodup f.2.1 = true ∧ wfL f.2.2 = true) ∧
      wfL (toks.foldl bstep (st, acc)).2 = true := by
  intro toks
  induction toks with
  | nil => intro st acc hst hacc; exact ⟨hst, hacc⟩
  | cons tok rest ih =>
    intro st acc hst hacc
    rw [List.foldl_cons]
    cases tok with
    | text s =>
      apply ih
      · exact hst
      · exact wfL_append hacc (by simp [wfL, wfN])
    | tagOpen t a =>
      simp only [bstep]
      split
      · rename_i hv
        apply ih _ _ hst
        apply wfL_append hacc
        simp [wfL, wfN, keysNodup_dedupAttrs]
      · rename_i hv
        apply ih
        · intro f hf
          rcases (List.mem_cons).mp hf with hf1 | hf2
          · subst hf1
            exact ⟨by simpa using hv, keysNodup_dedupAttrs a [], hacc⟩
          · exact hst f hf2
        · rfl
    | close t =>
      simp only [bstep]
      split
      · have h := closeUpTo_wf st acc t hst hacc
        exact ih _ _ h.1 h.2
      · exact ih _ _ hst hacc

theorem bfinish_wf : ∀ (st : List Frame) (acc : List Node),
    (∀ f ∈ st, voidTags.contains f.1 = false ∧ keysNodup f.2.1 = true ∧ wfL f.2.2 = true) →
    wfL acc = true → wfL (bfinish st acc) = true := by
  intro st
  induction st with
  | nil => intro acc _ hacc; simpa [bfinish] using hacc
  | cons f st' ih =>
    intro acc hst hacc
    obtain ⟨t', a', acc'⟩ := f
    obtain ⟨hv, hnd, hwf⟩ := hst (t', a', acc') (by simp)
    have hv' : voidTags.contains t' = false := hv
    have hnd' : keysNodup a' = true := hnd
    have hwf' : wfL acc' = true := hwf
    rw [bfinish]
    apply ih _ (fun g hg => hst g (by simp [hg]))
    apply wfL_append hwf'
    simp [wfL, wfN, hnd', hacc]
    exact Or.inl (by simpa using hv')

/-- Every parsed forest is well-formed: attribute keys are deduplicated
and void elements are childless. -/
theorem wf_parse (s : String) : wfL (parse s) = true := by
  unfold parse build
  have h := foldl_bstep_wf (tokenize s.data) [] [] (by simp) rfl
  exact bfinish_wf _ _ h.1 h.2

/-! ### Sanitizer output is clean -/

theorem data_append (s t : String) : (s ++ t).data = s.data ++ t.data := by
  cases s; cases t; rfl

theorem str_append_ne {s : String} (s2 : String) (h : s ≠ "") : s ++ s2 ≠ "" := by
  intro hc
  apply ne_empty_data h
  have hd := congrArg String.data hc
  rw [data_append] at hd
  exact (List.append_eq_nil.mp hd).1

theorem cleanL_cons_elem {x : Node} {ys : List Node} (hx : cleanN x = true)
    (ht : isTextN x = false) (hys : cleanL ys = true) : cleanL (x :: ys) = true := by
  cases ys with
  | nil => simpa [cleanL] using hx
  | cons y r => simp [cleanL, hx, ht, hys]

theorem keysNodup_filter (f : String × String → Bool) :
    ∀ a : List (String × String), keysNodup a = true → keysNodup (a.filter f) = true := by
  intro a
  induction a with
  | nil => intro _; rfl
  | cons p rest ih =>
    intro h
    obtain ⟨hany, hnd⟩ := keysNodup_cons h
    rw [List.filter_cons]
    split
    · simp only [keysNodup, Bool.and_eq_true, Bool.not_eq_true']
      refine ⟨?_, ih hnd⟩
      cases hb : (rest.filter f).any (fun q => q.1 == p.1) with
      | false => rfl
      | true =>
        obtain ⟨q, hq, hbeq⟩ := List.any_eq_true.mp hb
        have hq' : q ∈ rest := (List.mem_filter.mp hq).1
        have : rest.any (fun x => x.1 == p.1) = true := List.any_eq_true.mpr ⟨q, hq', hbeq⟩
        simp [this] at hany
    · exact ih hnd

theorem coalesce_good : ∀ ns : List Node,
    (∀ n ∈ ns, isTextN n = true ∨ cleanN n = true) → cleanL (coalesce ns) = true := by
  intro ns
  induction ns with
  | nil => intro _; rfl
  | cons x rest ih =>
    intro h
    have hrest : cleanL (coalesce rest) = true := ih (fun n hn => h n (by simp [hn]))
    cases x with
    | elem t a c =>
      rw [coalesce]
      have hx : cleanN (Node.elem t a c) = true := by
        rcases h (Node.elem t a c) (by simp) with h1 | h2
        · simp [isTextN] at h1
        · exact h2
      exact cleanL_cons_elem hx rfl hrest
    | text s =>
      rw [coalesce]
      by_cases hs : s = ""
      · rw [if_pos hs]
        exact hrest
      · rw [if_neg hs]
        rcases hcr : coalesce rest with _ | ⟨y, r⟩
        · simp only [hcr]
          simpa [cleanL, cleanN] using hs
        · cases y with
          | text s2 =>
            rw [hcr] at hrest
            simp only [hcr]
            have hr : cleanL r = true := cleanL_tail hrest
            cases r with
            | nil =>
              simpa [cleanL, cleanN] using str_append_ne s2 hs
            | cons z r2 =>
              have hsep := cleanL_sep hrest
              simp only [isTextN, Bool.true_and] at hsep
              simp only [cleanL, Bool.and_eq_true]
              refine ⟨⟨by simpa [cleanN] using str_append_ne s2 hs, ?_⟩, hr⟩
              simp [isTextN, hsep]
          | elem t2 a2 c2 =>
            rw [hcr] at hrest
            simp only [hcr]
            simp only [cleanL, Bool.and_eq_true]
            exact ⟨⟨by simpa [cleanN] using hs, by simp [isTextN]⟩, hrest⟩

theorem wfN_elem {t : String} {a : List (String × String)} {c : List Node}
    (h : wfN (.elem t a c) = true) :
    keysNodup a = true ∧ (voidTags.contains t = true → c = []) ∧ wfL c = true := by
  simp only [wfN, Bool.and_eq_true] at h
  obtain ⟨⟨h1, h2⟩, h3⟩ := h
  refine ⟨h1, fun hv => ?_, h3⟩
  simp only [Bool.or_eq_true, Bool.not_eq_true'] at h2
  rcases h2 with hv' | he
  · rw [hv] at hv'
    exact absurd hv' (by simp)
  · simpa using he

theorem wfL_cons {x : Node} {r : List Node} (h : wfL (x :: r) = true) :
    wfN x = true ∧ wfL r = true := by
  simpa [wfL, Bool.and_eq_true] using h

theorem filter_attrOK_all (a : List (String × String)) :
    (a.filter attrOK).all attrOK = true := by
  rw [List.all_eq_true]
  intro p hp
  exact (List.mem_filter.mp hp).2

mutual
theorem sanN_good : ∀ n : Node, wfN n = true → ∀ m ∈ sanitizeNode n,
    isTextN m = true ∨ cleanN m = true
  | .text s, _, m, hm => by
    left
    rw [sanitizeNode] at hm
    simp only [List.mem_singleton] at hm
    subst hm
    rfl
  | .elem t a c, h, m, hm => by
    obtain ⟨hnd, hvoid, hwc⟩ := wfN_elem h
    rw [sanitizeNode] at hm
    split at hm
    · simp at hm
    · split at hm
      · rename_i hforb hallow
        simp only [List.mem_singleton] at hm
        subst hm
        right
        have hch : cleanL (coalesce (sanitizeList c)) = true :=
          coalesce_good _ (fun n hn => sanL_good c hwc n hn)
        have hattrs : attrsClean (filterAttrs a) = true := by
          simp only [attrsClean, Bool.and_eq_true]
          exact ⟨keysNodup_filter attrOK a hnd, filter_attrOK_all a⟩
        simp only [cleanN, Bool.and_eq_true]
        refine ⟨⟨⟨hallow, hattrs⟩, ?_⟩, hch⟩
        by_cases hv : voidTags.contains t = true
        · have hc0 : c = [] := hvoid hv
          subst hc0
          simp [sanitizeList, coalesce]
        · have hv' : voidTags.contains t = false := by simpa using hv
          rw [hv']
          rfl
      · rename_i hforb hallow
        exact sanL_good c hwc m hm

theorem sanL_good : ∀ ts : List Node, wfL ts = true → ∀ m ∈ sanitizeList ts,
    isTextN m = true ∨ cleanN m = true
  | [], _, m, hm => by
    rw [sanitizeList] at hm
    simp at hm
  | x :: rest, h, m, hm => by
    obtain ⟨hx, hr⟩ := wfL_cons h
    rw [sanitizeList] at hm
    rcases List.mem_append.mp hm with hm1 | hm2
    · exact sanN_good x hx m hm1
    · exact sanL_good rest hr m hm2
end

/-- The coalesced sanitization of a well-formed forest is clean. -/
theorem sanitized_clean {ns : List Node} (h : wfL ns = true) :
    cleanL (coalesce (sanitizeList ns)) = true :=
  coalesce_good _ (fun n hn => sanL_good ns h n hn)

theorem attrsClean_all {a : List (String × String)} (h : attrsClean a = true) :
    ∀ p ∈ a, attrOK p = true := by
  simp only [attrsClean, Bool.and_eq_true, List.all_eq_true] at h
  exact h.2

/-! ### Assembly: the engine's tree output is clean and stable -/

/-- The sanitized tree of any input is clean. -/
theorem sanitizedTree_clean (s : String) : cleanL (sanitizedTree s) = true := by
  unfold sanitizedTree
  exact sanitized_clean (wf_parse s)

/-- Re-running the tree engine on the serialization of a sanitized tree is
a no-op: the string-level link post-pass is the only part of the pipeline
that can break idempotence. -/
theorem sanitizedTree_restab (s : String) :
    sanitizedTree (String.mk (serList (sanitizedTree s))) = sanitizedTree s := by
  have hc : cleanL (sanitizedTree s) = true := sanitizedTree_clean s
  have h1 : parse (String.mk (serList (sanitizedTree s))) = sanitizedTree s :=
    parse_serList hc
  show coalesce (sanitizeList
      (parse (String.mk (serList (sanitizedTree s))))) = sanitizedTree s
  rw [h1, sanL_clean _ hc, coalesce_clean _ hc]

/-! ### Observers of clean trees -/

theorem attrOK_allowed {p : String × String} (h : attrOK p = true) :
    ALLOWED_ATTR.contains p.1 = true := by
  simp only [attrOK, Bool.and_eq_true] at h
  exact h.1.1

theorem attrOK_href {p : String × String} (h : attrOK p = true) (hn : p.1 = "href") :
    isSafeUri p.2 = true := by
  simp only [attrOK, Bool.and_eq_true, Bool.or_eq_true, Bool.not_eq_true'] at h
  rcases h.2 with hu | hs
  · rw [hn] at hu
    exact absurd hu (by decide)
  · exact hs

theorem allowed_attr_not_on {nm : String} (h : ALLOWED_ATTR.contains nm = true) :
    strStarts (String.mk (nm.data.map Char.toLower)) "on" = false := by
  have hm : nm ∈ ALLOWED_ATTR := by simpa using h
  fin_cases hm <;> decide

mutual
theorem cleanN_elems : ∀ n : Node, cleanN n = true → ∀ e ∈ elemsOfN n,
    ALLOWED_TAGS.contains e.1 = true ∧ ∀ p ∈ e.2, attrOK p = true
  | .text s, _, e, he => by
    rw [elemsOfN] at he
    simp at he
  | .elem t a c, h, e, he => by
    obtain ⟨htag, hattrs, _, hcc⟩ := cleanN_elem h
    rw [elemsOfN] at he
    rcases List.mem_cons.mp he with he1 | he2
    · subst he1
      exact ⟨htag, attrsClean_all hattrs⟩
    · exact cleanL_elems c hcc e he2

theorem cleanL_elems : ∀ ts : List Node, cleanL ts = true → ∀ e ∈ elemsOfL ts,
    ALLOWED_TAGS.contains e.1 = true ∧ ∀ p ∈ e.2, attrOK p = true
  | [], _, e, he => by
    rw [elemsOfL] at he
    simp at he
  | x :: rest, h, e, he => by
    rw [elemsOfL] at he
    rcases List.mem_append.mp he with he1 | he2
    · exact cleanN_elems x (cleanL_head h) e he1
    · exact cleanL_elems rest (cleanL_tail h) e he2
end

/-- Every element of a sanitized tree has an allowed tag and only
policy-passing attributes. -/
theorem sanitizedTree_elems (x : String) : ∀ e ∈ elemsOfL (sanitizedTree x),
    ALLOWED_TAGS.contains e.1 = true ∧ ∀ p ∈ e.2, attrOK p = true :=
  cleanL_elems _ (sanitizedTree_clean x)

/-! ### StockNotes: every value handed to setItem is a sanitizer output -/

theorem mount_writes_val (symbol : String) (store : Store) (writeOk : Bool) :
    ∀ w ∈ (mountResult symbol store writeOk).2.1,
      w.2 = sanitizeNote ((getItem store (storageKey symbol)).getD "") := by
  intro w hw
  unfold mountResult at hw
  split at hw
  · simp only [List.mem_singleton] at hw
    subst hw
    rfl
  · simp at hw

theorem sessionWrites_sanitized (symbol : String) (store : Store) (writeOk : Bool)
    (edits : List String) : ∀ w ∈ sessionWrites symbol store writeOk edits,
    ∃ u, w.2 = sanitizeNote u := by
  intro w hw
  unfold sessionWrites at hw
  simp only [List.mem_append] at hw
  rcases hw with (hw | hw) | hw
  · exact ⟨_, mount_writes_val symbol store writeOk w hw⟩
  · simp only [persistWrites, List.mem_singleton] at hw
    subst hw
    exact ⟨_, rfl⟩
  · rw [List.mem_flatten] at hw
    obtain ⟨l, hl, hwl⟩ := hw
    rw [List.mem_map] at hl
    obtain ⟨e, _, he⟩ := hl
    subst he
    simp only [persistWrites, List.mem_singleton] at hwl
    subst hwl
    exact ⟨e, rfl⟩

/-! ## Claim theorems -/

/-- C1 (amended): for every input string, no element of the sanitized
tree has a forbidden tag (script, style, iframe, object, embed, svg or
any other member of FORBID_TAGS), so the tree engine itself never emits
forbidden markup; the claim's case-insensitive substrings can
nevertheless occur in the output string, for instance inside a quoted
attribute value, because the serializer escapes attribute values only
for quote and ampersand. -/
theorem claim_C1_no_forbidden_elements : ∀ x : String, ∀ e ∈ elemsOfL (sanitizedTree x),
    FORBID_TAGS.contains e.1 = false := by
  intro x e he
  exact allowed_not_forbid (sanitizedTree_elems x e he).1

/-- C1 counterexample: the claim as stated is false: an attribute value
may contain the substring `<script`, which survives into the output
(case-insensitively) because attribute values are escaped only for quote
and ampersand. -/
theorem claim_C1_counterexample :
    containsCI (sanitizeHtml "<a rel=\"<script\">x</a>") "<script" = true := by decide

/-- C1 witness: a concrete element of a sanitized tree, with a tag that
is not forbidden. -/
theorem claim_C1_witness :
    ("p", ([] : List (String × String))) ∈ elemsOfL (sanitizedTree "<p>hi</p>") ∧
      FORBID_TAGS.contains "p" = false :=
  ⟨by decide, claim_C1_no_forbidden_elements "<p>hi</p>" ("p", []) (by decide)⟩

/-- The tree engine alone satisfies C2: no element of the sanitized tree
carries an attribute whose lowercased name starts with `on`. The failure
shown in the C2 claim theorem below is introduced entirely by the
string-level link post-pass. -/
theorem sanitizedTree_no_on_attrs : ∀ x : String, ∀ e ∈ elemsOfL (sanitizedTree x),
    ∀ p ∈ e.2, strStarts (String.mk (p.1.data.map Char.toLower)) "on" = false := by
  intro x e he p hp
  exact allowed_attr_not_on (attrOK_allowed ((sanitizedTree_elems x e he).2 p hp))

set_option maxRecDepth 8192

/-- C2 (code bug): the claim fails on the real pipeline. On the probe
below, the string-level link post-pass mistakes the single-quoted
`href` inside the outer double-quoted href value for the real attribute
list and splices ` rel=... target=...>` into the middle of that value;
the resulting output string contains `onclick` and re-parses to a `b`
element carrying an `onclick` attribute, contradicting the source doc
comment ("Strips all event handler attributes") and the XSS test
suite's `not.toContain('onclick')` assertions. -/
theorem claim_C2_event_handler_reintroduced :
    ("b", [("onclick", "alert(1)")]) ∈ elemsOfL (parse (sanitizeHtml
      "<a href=\"https://e.com/&lt;a href='https://f.com/'&gt;&lt;b onclick=alert(1)&gt;\">y</a>")) ∧
    containsCI (sanitizeHtml
      "<a href=\"https://e.com/&lt;a href='https://f.com/'&gt;&lt;b onclick=alert(1)&gt;\">y</a>")
      "onclick" = true := by decide

/-- C3: every href value surviving sanitization passes the URI validator
(relative reference, or allowlisted scheme after stripping whitespace and
ASCII control characters); in particular a javascript: URI is dropped and
a tab inserted mid-scheme does not evade the filter. -/
theorem claim_C3_scheme_filtering :
    (∀ x : String, ∀ e ∈ elemsOfL (sanitizedTree x), ∀ p ∈ e.2, p.1 = "href" →
      isSafeUri p.2 = true) ∧
    sanitizeHtml "<a href=\"javascript:alert(1)\">x</a>" = "<a>x</a>" ∧
    sanitizeHtml "<a href=\"java\tscript:alert(1)\">x</a>" = "<a>x</a>" := by
  refine ⟨?_, by decide, by decide⟩
  intro x e he p hp hn
  exact attrOK_href ((sanitizedTree_elems x e he).2 p hp) hn

/-- C3 witness: a concrete surviving href, shown safe by the theorem. -/
theorem claim_C3_witness : isSafeUri "mailto:x@y.z" = true :=
  claim_C3_scheme_filtering.1 "<a href=\"mailto:x@y.z\">m</a>"
    ("a", [("href", "mailto:x@y.z")]) (by decide) ("href", "mailto:x@y.z") (by decide) rfl

/-- C4 (code bug): sanitizeHtml is not idempotent. The tree engine is a
no-op on its own output (sanitizedTree_restab), but the string-level
link post-pass is not: on the probe below its first pass splices
` rel="noopener noreferrer" target="_blank"` inside the quoted href
value, and the second pass re-parses that quote-confused string
differently, so applying sanitizeHtml twice differs from applying it
once — defeating the spec's idempotence requirement, which it calls the
structural defense against mutation XSS. -/
theorem claim_C4_not_idempotent :
    sanitizeHtml (sanitizeHtml "<a href=\"https://e.com/&lt;a href='https://f.com/'&gt;\">x</a>") ≠
      sanitizeHtml "<a href=\"https://e.com/&lt;a href='https://f.com/'&gt;\">x</a>" := by decide

/-- C5: an element with a forbidden tag is deleted together with all of
its descendants; an element whose tag is merely not allowed (and not
forbidden) is removed but its sanitized children are kept in place, and
these are the only discarding rules, as shown on the two examples. -/
theorem claim_C5_content_rules :
    (∀ (t : String) (a : List (String × String)) (c : List Node),
      FORBID_TAGS.contains t = true → sanitizeNode (.elem t a c) = []) ∧
    (∀ (t : String) (a : List (String × String)) (c : List Node),
      FORBID_TAGS.contains t = false → ALLOWED_TAGS.contains t = false →
      sanitizeNode (.elem t a c) = sanitizeList c) ∧
    sanitizeHtml "<script>alert(1)</script>Hello" = "Hello" ∧
    sanitizeHtml "<div onclick=\"x\">Click</div>" = "Click" := by
  refine ⟨?_, ?_, by decide, by decide⟩
  · intro t a c h
    rw [sanitizeNode, if_pos h]
  · intro t a c h1 h2
    rw [sanitizeNode, if_neg (by rw [h1]; simp), if_neg (by rw [h2]; simp)]

/-- C5 witness: the two rules applied at concrete elements. -/
theorem claim_C5_witness :
    sanitizeNode (.elem "script" [] [.text "alert(1)"]) = [] ∧
    sanitizeNode (.elem "div" [("onclick", "x")] [.text "Click"]) =
      sanitizeList [.text "Click"] :=
  ⟨claim_C5_content_rules.1 "script" [] [.text "alert(1)"] (by decide),
   claim_C5_content_rules.2.1 "div" [("onclick", "x")] [.text "Click"] (by decide) (by decide)⟩

/-- C6 (amended): the post-pass matches each `<a ...href="http(s)://x"...>`
tag (nonempty remainder after `://` required) and appends
` rel="noopener noreferrer"` exactly when the substring `rel=` is absent
from the matched attribute text, and ` target="_blank"` exactly when
`target=` is absent; the spec's quoted example gains both (first
conjunct); an existing rel such as `nofollow` is kept unchanged, and the
substring test means an href containing `?rel=1` suppresses the rel
addition and an `href="http://"` with empty authority is not hardened at
all. -/
theorem claim_C6_add_if_absent :
    sanitizeHtml "<a href=\"https://example.com\">Example</a>" =
      "<a href=\"https://example.com\" rel=\"noopener noreferrer\" target=\"_blank\">Example</a>" ∧
    sanitizeHtml "<a href=\"https://example.com/\" rel=\"nofollow\">x</a>" =
      "<a href=\"https://example.com/\" rel=\"nofollow\" target=\"_blank\">x</a>" ∧
    sanitizeHtml "<a href=\"https://example.com/?rel=1\">x</a>" =
      "<a href=\"https://example.com/?rel=1\" target=\"_blank\">x</a>" ∧
    sanitizeHtml "<a href=\"http://\">x</a>" = "<a href=\"http://\">x</a>" := by decide

/-- C6 counterexample: the claim as stated is false: an `a` element whose
href contains the substring `rel=` (here `?rel=1`) gets no rel attribute
at all, and an `a` element with an existing `rel="nofollow"` keeps it
unchanged; in both cases the output rel does not contain noopener or
noreferrer. -/
theorem claim_C6_counterexample :
    elemsOfL (parse (sanitizeHtml "<a href=\"https://example.com/?rel=1\">x</a>")) =
      [("a", [("href", "https://example.com/?rel=1"), ("target", "_blank")])] ∧
    containsCI (sanitizeHtml "<a href=\"https://example.com/?rel=1\">x</a>")
      "noopener" = false ∧
    containsCI (sanitizeHtml "<a href=\"https://example.com/\" rel=\"nofollow\">x</a>")
      "noopener" = false := by decide

/-- C7: sanitizeHtml never raises: it is a total function on strings, a
non-string input is coerced to the empty output, and the empty string
maps to the empty string. -/
theorem claim_C7_never_errors :
    (∀ h : String, sanitizeHtmlInput (.str h) = sanitizeHtml h) ∧
    sanitizeHtmlInput .nonString = "" ∧ sanitizeHtml "" = "" :=
  ⟨fun _ => rfl, rfl, rfl⟩

/-- C8: in every StockNotes session (mount plus any sequence of edits),
every value handed to setItem is a sanitizeNote result. -/
theorem claim_C8_sanitized_writes_only :
    ∀ (symbol : String) (store : Store) (writeOk : Bool) (edits : List String),
    ∀ w ∈ sessionWrites symbol store writeOk edits,
      ∃ u, w.2 = sanitizeNote u := by
  intro symbol store writeOk edits w hw
  exact sessionWrites_sanitized symbol store writeOk edits w hw

/-- C8 witness: a concrete session write, shown sanitized by the
theorem. -/
theorem claim_C8_witness :
    ∃ u, ("Hello" : String) = sanitizeNote u :=
  claim_C8_sanitized_writes_only "AAPL" [("notes:AAPL", "<script>alert(1)</script>Hello")]
    true [] ("notes:AAPL", "Hello") (by decide)

/-- C9: the URI allowlist accepts the ftp and ftps schemes in addition to
http, https and mailto, and an ftp href is preserved verbatim. -/
theorem claim_C9_ftp_schemes :
    sanitizeHtml "<a href=\"ftp://example.com/file\">x</a>" =
      "<a href=\"ftp://example.com/file\">x</a>" ∧
    sanitizeHtml "<a href=\"ftps://example.com/file\">x</a>" =
      "<a href=\"ftps://example.com/file\">x</a>" ∧
    isSafeUri "ftp://example.com/file" = true ∧
    allowedSchemes = ["http", "https", "ftp", "ftps", "mailto"] := by decide

/-- C10: on mount, a stored non-empty note whose sanitization differs
from it causes exactly one write-back of the sanitized value under the
same key, and the initial state is the sanitized value whether or not
that write succeeds. -/
theorem claim_C10_mount_cleanup :
    ∀ (symbol : String) (store : Store) (stored : String) (writeOk : Bool),
    getItem store (storageKey symbol) = some stored → stored ≠ "" →
    sanitizeNote stored ≠ stored →
    (mountResult symbol store writeOk).1 = sanitizeNote stored ∧
    (mountResult symbol store writeOk).2.1 =
      [(storageKey symbol, sanitizeNote stored)] := by
  intro symbol store stored writeOk h1 h2 h3
  unfold mountResult
  rw [h1]
  simp only [Option.getD_some]
  rw [if_pos ⟨Ne.symm h3, h2⟩]
  exact ⟨rfl, rfl⟩

/-- C10 witness: a concrete poisoned entry is cleaned on mount even when
the write-back fails. -/
theorem claim_C10_witness :
    (mountResult "AAPL" [("notes:AAPL", "<script>alert(1)</script>Hello")] false).1 =
      sanitizeNote "<script>alert(1)</script>Hello" ∧
    (mountResult "AAPL" [("notes:AAPL", "<script>alert(1)</script>Hello")] false).2.1 =
      [("notes:AAPL", sanitizeNote "<script>alert(1)</script>Hello")] :=
  claim_C10_mount_cleanup "AAPL" [("notes:AAPL", "<script>alert(1)</script>Hello")]
    "<script>alert(1)</script>Hello" false (by decide) (by decide) (by decide)

end StockWatch
